import Mathlib

/-!
# Verification of the sudoku constraint-solver core

A shallow embedding, in Lean 4, of the solver in `src/sudoku.rs` together
with proofs about its behaviour.

Modelling conventions, shared by every definition below:

* Cells `"A1"`..`"I9"` are represented by their index `row * 9 + col`
  (`utils::cell_to_coords` / `utils::coords_to_cell` is the bijection);
  the peer sets of `Sudoku::new` are defined by the same same-row /
  same-column / same-box conditions the source uses.
* A `HashSet<usize>` candidate domain is represented by a duplicate-free
  `List Nat`.  `HashSet` iteration order is unspecified in Rust, so a
  canonical (ascending) order stands in for it wherever the source
  iterates a set.
* The candidate map `HashMap<String, HashSet<usize>>` is a `List` of 81
  domains indexed by cell.
* `assign` / `eliminate` are mutually recursive in the source (the
  work-list of `eliminate` calls `assign`, which calls `eliminate`); the
  embedding makes the recursion total with a fuel parameter.  `none`
  means the fuel ran out; `some (b, s)` mirrors the source returning the
  boolean `b` with the candidate map mutated to `s`.
-/

/-! ## Topology: cells, units and peers (`Sudoku::new`, `utils.rs`) -/

abbrev Cell := Nat

def rowOf (c : Cell) : Nat := c / 9
def colOf (c : Cell) : Nat := c % 9
def boxRowOf (c : Cell) : Nat := rowOf c / 3
def boxColOf (c : Cell) : Nat := colOf c / 3

def allCells : List Cell := List.range 81

/-- Row peers of a cell: the 8 other cells with the same row letter
(`Sudoku::new`, the `row_peers` map). -/
def rowPeers (c : Cell) : List Cell :=
  allCells.filter (fun p => p ≠ c && rowOf p == rowOf c)

/-- Column peers of a cell (`Sudoku::new`, the `col_peers` map). -/
def colPeers (c : Cell) : List Cell :=
  allCells.filter (fun p => p ≠ c && colOf p == colOf c)

/-- Box peers of a cell: same `row/3` and `col/3` (`Sudoku::new`, the
`box_peers` map). -/
def boxPeers (c : Cell) : List Cell :=
  allCells.filter (fun p =>
    p ≠ c && boxRowOf p == boxRowOf c && boxColOf p == boxColOf c)

/-- The 20 peers of a cell: every other cell sharing a unit
(`Sudoku::new`, the `peers` map). -/
def peers (c : Cell) : List Cell :=
  allCells.filter (fun p =>
    p ≠ c &&
      (rowOf p == rowOf c || colOf p == colOf c ||
        (boxRowOf p == boxRowOf c && boxColOf p == boxColOf c)))

/-! ## Candidate state -/

/-- The candidate map: entry `c` is the domain of cell `c`. -/
abbrev Cands := List (List Nat)

def dom (s : Cands) (c : Cell) : List Nat := s.getD c []

def setDom (s : Cands) (c : Cell) (l : List Nat) : Cands := s.set c l

/-- Build a candidate map from a list of overriding entries; unlisted
cells get the full domain `1..9`.  (Test-state constructor, not source
code.) -/
def mkCands (overrides : List (Cell × List Nat)) : Cands :=
  allCells.map (fun c => ((overrides.lookup c).getD [1,2,3,4,5,6,7,8,9]))

/-! ## The propagation engine (`Sudoku::assign` / `Sudoku::eliminate`)

`assign` and `eliminate` are mutually recursive in the source (the
work-list of `eliminate` calls `assign`, which calls `eliminate`).  The
embedding packs the five mutually recursive pieces into one step
functional `engineStep` and ties the knot with fuel by primitive
recursion (`engine`), which keeps every run kernel-computable.  The five
named functions below the knot are the source functions. -/

/-- A pending call of the engine: `eliminate` entry, `eliminate`
work-list state, the per-unit pass, `assign` entry, `assign`'s loop. -/
inductive ECall where
  | elim (s : Cands) (c : Cell) (d : Nat)
  | eloop (s : Cands) (tasks processed : List (Cell × Nat))
  | uloop (s : Cands) (units : List (List Cell)) (d : Nat)
  | assign (s : Cands) (c : Cell) (d : Nat)
  | aloop (s : Cands) (c : Cell) (vs : List Nat)

/-- One step of the engine; `ih` performs the nested calls (at one less
fuel).

* `.elim` — `Sudoku::eliminate(cell, digit)` (sudoku.rs lines 214-255):
  seed the work-list with the one task.
* `.eloop` — the work-list loop of `eliminate`: the head of `tasks` is
  the top of the source's stack, `processed` its `processed` set; a
  digit is removed only while more than one candidate remains, and a
  domain that became a singleton queues all peers for its value.
* `.uloop` — the per-unit pass ending each `eliminate` iteration
  (lines 240-252); the "units" the source iterates are the cell's
  `row_peers`, `col_peers` and `box_peers` sets — 8 cells each, the
  cell itself excluded.
* `.assign` — `Sudoku::assign(cell, digit)` (lines 198-212):
  `other_values` is the domain minus `digit`.
* `.aloop` — the `for d2 in other_values` loop of `assign`. -/
def engineStep (ih : ECall → Option (Bool × Cands)) : ECall → Option (Bool × Cands)
  | .elim s c d => ih (.eloop s [(c, d)] [])
  | .eloop s tasks processed =>
    match tasks with
    | [] => some (true, s)
    | (c, d) :: rest =>
      if (c, d) ∈ processed then ih (.eloop s rest processed)
      else
        if (dom s c).contains d = false then
          ih (.eloop s rest ((c, d) :: processed))
        else
          let s2 := if 1 < (dom s c).length
            then setDom s c ((dom s c).erase d) else s
          if (dom s2 c).isEmpty then some (false, s2)
          else
            let rest2 := if (dom s2 c).length = 1
              then ((peers c).map (fun p => (p, (dom s2 c).headD 0))) ++ rest
              else rest
            match ih (.uloop s2 [rowPeers c, colPeers c, boxPeers c] d) with
            | none => none
            | some (false, s3) => some (false, s3)
            | some (true, s3) => ih (.eloop s3 rest2 ((c, d) :: processed))
  | .uloop s units d =>
    match units with
    | [] => some (true, s)
    | u :: us =>
      match u.filter (fun p => (dom s p).contains d) with
      | [] => some (false, s)
      | [p] =>
        match ih (.assign s p d) with
        | none => none
        | some (false, s2) => some (false, s2)
        | some (true, s2) => ih (.uloop s2 us d)
      | _ => ih (.uloop s us d)
  | .assign s c d => ih (.aloop s c ((dom s c).erase d))
  | .aloop s c vs =>
    match vs with
    | [] => some (true, s)
    | v :: rest =>
      match ih (.elim s c v) with
      | none => none
      | some (false, s2) => some (false, s2)
      | some (true, s2) => ih (.aloop s2 c rest)

/-- The engine: `fuel` steps of `engineStep`; `none` when fuel runs out. -/
def engine : Nat → ECall → Option (Bool × Cands) :=
  fun n => Nat.rec (motive := fun _ => ECall → Option (Bool × Cands))
    (fun _ => none) (fun _ ih => engineStep ih) n

/-- `Sudoku::eliminate(cell, digit)`. -/
def elimF (fuel : Nat) (s : Cands) (c : Cell) (d : Nat) : Option (Bool × Cands) :=
  engine fuel (.elim s c d)

/-- The work-list loop of `Sudoku::eliminate`. -/
def elimLoop (fuel : Nat) (s : Cands) (tasks processed : List (Cell × Nat)) :
    Option (Bool × Cands) :=
  engine fuel (.eloop s tasks processed)

/-- The per-unit pass of `Sudoku::eliminate`. -/
def unitLoop (fuel : Nat) (s : Cands) (units : List (List Cell)) (d : Nat) :
    Option (Bool × Cands) :=
  engine fuel (.uloop s units d)

/-- `Sudoku::assign(cell, digit)`. -/
def assignF (fuel : Nat) (s : Cands) (c : Cell) (d : Nat) : Option (Bool × Cands) :=
  engine fuel (.assign s c d)

/-- The `for d2 in other_values` loop of `Sudoku::assign`. -/
def assignLoop (fuel : Nat) (s : Cands) (c : Cell) (vs : List Nat) :
    Option (Bool × Cands) :=
  engine fuel (.aloop s c vs)

/-! ### Unfolding equations for the engine functions -/

theorem elimF_zero (s : Cands) (c : Cell) (d : Nat) : elimF 0 s c d = none := rfl

theorem elimF_succ (f : Nat) (s : Cands) (c : Cell) (d : Nat) :
    elimF (f + 1) s c d = elimLoop f s [(c, d)] [] := rfl

theorem elimLoop_zero (s : Cands) (ts ps : List (Cell × Nat)) :
    elimLoop 0 s ts ps = none := rfl

theorem elimLoop_succ_nil (f : Nat) (s : Cands) (ps : List (Cell × Nat)) :
    elimLoop (f + 1) s [] ps = some (true, s) := rfl

theorem elimLoop_succ_cons (f : Nat) (s : Cands) (c : Cell) (d : Nat)
    (rest ps : List (Cell × Nat)) :
    elimLoop (f + 1) s ((c, d) :: rest) ps =
      (if (c, d) ∈ ps then elimLoop f s rest ps
       else
        if (dom s c).contains d = false then
          elimLoop f s rest ((c, d) :: ps)
        else
          let s2 := if 1 < (dom s c).length
            then setDom s c ((dom s c).erase d) else s
          if (dom s2 c).isEmpty then some (false, s2)
          else
            let rest2 := if (dom s2 c).length = 1
              then ((peers c).map (fun p => (p, (dom s2 c).headD 0))) ++ rest
              else rest
            match unitLoop f s2 [rowPeers c, colPeers c, boxPeers c] d with
            | none => none
            | some (false, s3) => some (false, s3)
            | some (true, s3) => elimLoop f s3 rest2 ((c, d) :: ps)) := rfl

theorem unitLoop_zero (s : Cands) (us : List (List Cell)) (d : Nat) :
    unitLoop 0 s us d = none := rfl

theorem unitLoop_succ_nil (f : Nat) (s : Cands) (d : Nat) :
    unitLoop (f + 1) s [] d = some (true, s) := rfl

theorem unitLoop_succ_cons (f : Nat) (s : Cands) (u : List Cell)
    (us : List (List Cell)) (d : Nat) :
    unitLoop (f + 1) s (u :: us) d =
      (match u.filter (fun p => (dom s p).contains d) with
       | [] => some (false, s)
       | [p] =>
         match assignF f s p d with
         | none => none
         | some (false, s2) => some (false, s2)
         | some (true, s2) => unitLoop f s2 us d
       | _ => unitLoop f s us d) := rfl

theorem assignF_zero (s : Cands) (c : Cell) (d : Nat) : assignF 0 s c d = none := rfl

theorem assignF_succ (f : Nat) (s : Cands) (c : Cell) (d : Nat) :
    assignF (f + 1) s c d = assignLoop f s c ((dom s c).erase d) := rfl

theorem assignLoop_zero (s : Cands) (c : Cell) (vs : List Nat) :
    assignLoop 0 s c vs = none := rfl

theorem assignLoop_succ_nil (f : Nat) (s : Cands) (c : Cell) :
    assignLoop (f + 1) s c [] = some (true, s) := rfl

theorem assignLoop_succ_cons (f : Nat) (s : Cands) (c : Cell) (v : Nat) (rest : List Nat) :
    assignLoop (f + 1) s c (v :: rest) =
      (match elimF f s c v with
       | none => none
       | some (false, s2) => some (false, s2)
       | some (true, s2) => assignLoop f s2 c rest) := rfl


/-! ## Puzzle parsing (`Sudoku::from_string`, sudoku.rs lines 132-155)

The Rust function takes a `&str`; `s.len()` is its UTF-8 *byte* length
while `s.chars().nth(i)` indexes *characters*, and `.unwrap()` on a
missing character is a panic.  The embedding takes the character list,
computes the byte length with `Char.utf8Size`, and returns `none` for
the panic. -/

abbrev Grid := List (List Nat)

def utf8Len (s : List Char) : Nat := (s.map (fun c => c.utf8Size)).sum

def emptyGrid : Grid := List.replicate 9 (List.replicate 9 0)

def gridSet (g : Grid) (row col v : Nat) : Grid :=
  g.set row ((g.getD row []).set col v)

def gridGet (g : Grid) (row col : Nat) : Nat := (g.getD row []).getD col 0

/-- One cell of the parse: `'.'` maps to 0, otherwise `to_digit(10)`
(which accepts `'0'`-`'9'`), and the `value > 9` re-check.  `none` is
the `unwrap` panic on a missing character. -/
def parseCell (s : List Char) (i : Nat) : Option (Except String Nat) :=
  match s.get? i with
  | none => none
  | some c =>
    if c = '.' then some (Except.ok 0)
    else if c.isDigit then
      let v := c.toNat - '0'.toNat
      if 9 < v then some (Except.error "Each digit must be from 0 to 9.")
      else some (Except.ok v)
    else some (Except.error "Each character must be a digit from 0 to 9 or a dot.")

/-- The row/col double loop of `from_string`, in row-major order. -/
def fromStringLoop (s : List Char) (g : Grid) : List (Nat × Nat) →
    Option (Except String Grid)
  | [] => some (Except.ok g)
  | (row, col) :: rest =>
    match parseCell s (9 * row + col) with
    | none => none
    | some (Except.error e) => some (Except.error e)
    | some (Except.ok v) => fromStringLoop s (gridSet g row col v) rest

def rcPairs : List (Nat × Nat) :=
  (List.range 9).flatMap (fun r => (List.range 9).map (fun c => (r, c)))

/-- `Sudoku::from_string`. -/
def fromString (s : List Char) : Option (Except String Grid) :=
  if utf8Len s ≠ 81 then
    some (Except.error "Input string must be 81 characters long.")
  else fromStringLoop s emptyGrid rcPairs

/-! ## Candidate initialization (sudoku.rs lines 158-195) -/

/-- `Sudoku::initialize_candidates_lw`: set every domain to `1..9`, then
for each placed digit clear that cell's domain to the singleton and
remove the digit from every peer — with no emptiness check anywhere. -/
def lwInit (g : Grid) : Cands :=
  rcPairs.foldl
    (fun s rc =>
      let c := 9 * rc.1 + rc.2
      let digit := gridGet g rc.1 rc.2
      if digit ≠ 0 then
        let s2 := setDom s c [digit]
        (peers c).foldl (fun s3 p => setDom s3 p ((dom s3 p).erase digit)) s2
      else s)
    (mkCands [])

/-- `Sudoku::initialize_candidates_heavy` with instrumentation: the
source calls `self.assign(&cell, digit)` and *discards* the returned
boolean (line 191); the second component records whether every one of
those discarded booleans was `true`.  `initialize_candidates_heavy`
itself is the first component. -/
def heavyInitAux (fuel : Nat) (g : Grid) : Option (Cands × Bool) :=
  rcPairs.foldl
    (fun acc rc =>
      match acc with
      | none => none
      | some (s, ok) =>
        let c := 9 * rc.1 + rc.2
        let digit := gridGet g rc.1 rc.2
        if digit ≠ 0 then
          match assignF fuel s c digit with
          | none => none
          | some (b, s2) => some (s2, ok && b)
        else some (s, ok))
    (some (mkCands [], true))

/-- `Sudoku::initialize_candidates_heavy` exactly as the source behaves
at its interface: a state comes back, no failure signal does. -/
def heavyInit (fuel : Nat) (g : Grid) : Option Cands :=
  (heavyInitAux fuel g).map Prod.fst

/-! ## Brute-force backtracking (`BruteForceSolver::solve`, lines 450-507) -/

/-- `Sudoku::is_valid` (sudoku.rs lines 261-288). -/
def isValid (g : Grid) (row col num : Nat) : Bool :=
  if gridGet g row col ≠ 0 then false
  else if (List.range 9).any (fun i => gridGet g row i == num) then false
  else if (List.range 9).any (fun i => gridGet g i col == num) then false
  else
    let boxRow := row - row % 3
    let boxCol := col - col % 3
    decide (¬ (List.range 3).any (fun i =>
      (List.range 3).any (fun j => gridGet g (boxRow + i) (boxCol + j) == num)))

/-- The cell-selection scan at the top of `BruteForceSolver::solve`:
row-major, keep the first strictly smaller candidate count, sentinel
`min_candidates = 10`. -/
def pickCell (g : Grid) (s : Cands) : Option (Nat × Nat) :=
  (rcPairs.foldl
    (fun acc rc =>
      if gridGet g rc.1 rc.2 = 0 then
        if (dom s (9 * rc.1 + rc.2)).length < acc.1 then
          ((dom s (9 * rc.1 + rc.2)).length, some rc)
        else acc
      else acc)
    (10, none)).2

/-- The `for &num in candidates` loop of `BruteForceSolver::solve`:
place `num` only if `is_valid`, recurse through `bfs` (the solver at
the current recursion depth), and reset the cell to 0 when the
recursive call fails. -/
def tryStep (bfs : Grid → Cands → Bool × Grid) (g : Grid) (s : Cands)
    (row col : Nat) : List Nat → Bool × Grid
  | [] => (false, g)
  | n :: rest =>
    if isValid g row col n then
      match bfs (gridSet g row col n) s with
      | (true, g2) => (true, g2)
      | (false, g2) => tryStep bfs (gridSet g2 row col 0) s row col rest
    else tryStep bfs g s row col rest

/-- `BruteForceSolver::solve`: pick a cell, try its candidates; `true`
with the solved grid, or `false` with the grid as the recursion left
it.  The recursion depth is fuel-bounded by primitive recursion so
every run is kernel-computable; depth 82 always suffices. -/
def bfSolve : Nat → Grid → Cands → Bool × Grid :=
  fun fuel => Nat.rec (motive := fun _ => Grid → Cands → Bool × Grid)
    (fun g _ => (false, g))
    (fun _ ih g s =>
      match pickCell g s with
      | none => (true, g)
      | some rc => tryStep ih g s rc.1 rc.2 (dom s (9 * rc.1 + rc.2)))
    fuel

theorem bfSolve_zero (g : Grid) (s : Cands) : bfSolve 0 g s = (false, g) := rfl

theorem bfSolve_succ (f : Nat) (g : Grid) (s : Cands) :
    bfSolve (f + 1) g s =
      (match pickCell g s with
       | none => (true, g)
       | some rc => tryStep (bfSolve f) g s rc.1 rc.2 (dom s (9 * rc.1 + rc.2))) := rfl

/-! ## Annealing score (`StochasticSolver::score`, `Sudoku::unique_elements`) -/

/-- `Sudoku::unique_elements` (lines 291-294): the number of distinct
non-zero entries. -/
def uniqueElements (arr : List Nat) : Int :=
  ((arr.filter (fun x => x ≠ 0)).dedup).length

def rowList (g : Grid) (i : Nat) : List Nat := g.getD i []

def colList (g : Grid) (i : Nat) : List Nat :=
  (List.range 9).map (fun j => gridGet g j i)

def boxList (g : Grid) (bx bb : Nat) : List Nat :=
  (List.range 9).map (fun i => gridGet g (bx * 3 + i / 3) (bb * 3 + i % 3))

/-- `StochasticSolver::score` (lines 1302-1320): subtract the unique
count of every row and column, then of every box. -/
def score (g : Grid) : Int :=
  let afterRowsCols := (List.range 9).foldl
    (fun acc i => acc - (uniqueElements (rowList g i) + uniqueElements (colList g i))) 0
  (List.range 3).foldl
    (fun acc bx => (List.range 3).foldl
      (fun acc2 bb => acc2 - uniqueElements (boxList g bx bb)) acc)
    afterRowsCols

/-! ## Annealing acceptance (`StochasticSolver::accept`, lines 1326-1337)

The source computes `(delta_s as f64 / self.temperature).exp()` and
accepts when that value is `< u` for a uniform draw `u` from `[0,1)`.
The floating-point exponential is abstracted as its value `expVal`; the
facts the proofs use about it (`1 ≤ expVal` whenever the exponent is
nonnegative) hold both for the real exponential and for IEEE `exp`. -/

def accept (expVal : ℚ) (deltaS : Int) (u : ℚ) : Bool :=
  if deltaS ≤ 0 then true else decide (expVal < u)

/-! ## The stochastic solver (`StochasticSolver`, lines 1175-1338)

Randomness is supplied as oracles: `shuffleFn` stands for
`missing_digits.shuffle(&mut rng)`, `picks t` for the three `gen_range`
draws of the `t`-th `swap_random`, and `expVals t` / `us t` for the
exponential value and the uniform draw of the `t`-th `accept`.
`gen_range(0..len)` is modelled by reducing the oracle's value `% len`. -/

structure StochState where
  temperature : ℚ
  temperatureStart : ℚ
  coolingFactor : ℚ
  counter : Nat
deriving Repr, DecidableEq

/-- The `units` vector of `StochasticSolver::new` (lines 1267-1270): for
every cell, its row-, column- and box-peer sets — 243 entries. -/
def stochUnits : List (List Cell) :=
  allCells.flatMap (fun c => [rowPeers c, colPeers c, boxPeers c])

/-- `StochasticSolver::swap_random` (lines 1285-1300). -/
def swapRandom (st : StochState) (g : Grid) (pick : Nat × Nat × Nat) :
    StochState × Grid :=
  let unit := stochUnits.getD (pick.1 % stochUnits.length) []
  let ci := unit.getD (pick.2.1 % unit.length) 0
  let cj := unit.getD (pick.2.2 % unit.length) 0
  let vi := gridGet g (rowOf ci) (colOf ci)
  let vj := gridGet g (rowOf cj) (colOf cj)
  ({st with counter := st.counter + 1},
    gridSet (gridSet g (rowOf ci) (colOf ci) vj) (rowOf cj) (colOf cj) vi)

/-- `StochasticSolver::cool_down` (lines 1322-1324). -/
def coolDown (st : StochState) : StochState :=
  { st with temperature := st.temperature * st.coolingFactor }

/-- Occurrences of `d` on the board (the `digit_count` pass of
`StochasticSolver::solve`). -/
def digitCount (g : Grid) (d : Nat) : Nat :=
  (rcPairs.filter (fun rc => gridGet g rc.1 rc.2 == d)).length

/-- The `missing_digits` multiset: digits occurring fewer than 9 times,
as many copies as are missing (`9 - count` truncates at 0 exactly as
the `count < 9` guard does). -/
def missingDigits (g : Grid) : List Nat :=
  (List.range 9).flatMap (fun d0 => List.replicate (9 - digitCount g (d0 + 1)) (d0 + 1))

/-- The blank-filling pass of `StochasticSolver::solve` (lines
1220-1229): replace every 0 with the next entry of `ms`. -/
def fillBlanks (g : Grid) (ms : List Nat) : Grid :=
  (rcPairs.foldl
    (fun acc rc =>
      if gridGet acc.1 rc.1 rc.2 = 0 then
        (gridSet acc.1 rc.1 rc.2 (ms.getD acc.2 0), acc.2 + 1)
      else acc)
    (g, 0)).1

/-- One iteration of the `while score > -243 && self.counter < 1000000`
loop of `StochasticSolver::solve` (lines 1232-1246): swap, rescore,
revert the board and score if the move is rejected, cool down; `rec`
runs the remaining iterations. -/
def stochStep (picks : Nat → Nat × Nat × Nat) (expVals us : Nat → ℚ)
    (rec : StochState → Grid → Int → Nat → StochState × Grid × Int)
    (st : StochState) (g : Grid) (sc : Int) (t : Nat) : StochState × Grid × Int :=
  if -243 < sc ∧ st.counter < 1000000 then
    let sg := swapRandom st g (picks t)
    let sc1 := score sg.2
    if accept (expVals t) (sc1 - sc) (us t) then
      rec (coolDown sg.1) sg.2 sc1 (t + 1)
    else
      rec (coolDown sg.1) g sc (t + 1)
  else (st, g, sc)

/-- `fuel` iterations of `stochStep`; at `fuel` 0 the loop state is
returned as is. -/
def stochLoopF (picks : Nat → Nat × Nat × Nat) (expVals us : Nat → ℚ) :
    Nat → StochState → Grid → Int → Nat → StochState × Grid × Int :=
  Nat.rec (fun st g sc _ => (st, g, sc)) (fun _ ih => stochStep picks expVals us ih)

/-- The while-loop, run with fuel `1000000 - counter`. The fuel is
exact, not a truncation: each iteration raises `counter` by 1 (via
`swap_random`) and lowers the fuel by 1, so the fuel reaches 0 only when
`counter` has reached 1000000, where the source loop exits as well. -/
def stochLoop (st : StochState) (g : Grid) (sc : Int)
    (picks : Nat → Nat × Nat × Nat) (expVals us : Nat → ℚ) (t : Nat) :
    StochState × Grid × Int :=
  stochLoopF picks expVals us (1000000 - st.counter) st g sc t

theorem stochLoopF_zero (picks : Nat → Nat × Nat × Nat) (expVals us : Nat → ℚ)
    (st : StochState) (g : Grid) (sc : Int) (t : Nat) :
    stochLoopF picks expVals us 0 st g sc t = (st, g, sc) := rfl

theorem stochLoopF_succ (picks : Nat → Nat × Nat × Nat) (expVals us : Nat → ℚ)
    (fuel : Nat) (st : StochState) (g : Grid) (sc : Int) (t : Nat) :
    stochLoopF picks expVals us (fuel + 1) st g sc t =
      stochStep picks expVals us (stochLoopF picks expVals us fuel) st g sc t := rfl

/-- `StochasticSolver::solve` (lines 1187-1250): fill the blanks with
the shuffled missing digits, run the annealing loop, reset the
temperature, and report whether the perfect score was reached. -/
def stochSolve (st : StochState) (g : Grid) (shuffleFn : List Nat → List Nat)
    (picks : Nat → Nat × Nat × Nat) (expVals us : Nat → ℚ) :
    Bool × StochState × Grid :=
  let g1 := fillBlanks g (shuffleFn (missingDigits g))
  let out := stochLoop st g1 (score g1) picks expVals us 0
  (out.2.2 == -243, { out.1 with temperature := out.1.temperatureStart }, out.2.1)

/-! ## State-evolution invariants of the propagation engine -/

theorem dom_nonempty_lt (s : Cands) (c : Cell) (h : dom s c ≠ []) : c < s.length := by
  by_contra hc
  push_neg at hc
  exact h (by simp [dom, List.getD, List.getElem?_eq_none hc])

theorem dom_setDom_self (s : Cands) (c : Cell) (l : List Nat) (h : c < s.length) :
    dom (setDom s c l) c = l := by
  simp [dom, setDom, List.getD, List.getElem?_set_self, h]

theorem dom_setDom_ne (s : Cands) (c a : Cell) (l : List Nat) (h : a ≠ c) :
    dom (setDom s c l) a = dom s a := by
  simp [dom, setDom, List.getD, List.getElem?_set_ne (fun hh => h hh.symm)]

def Pres (s s₂ : Cands) : Prop :=
  ∀ a, (∀ x, x ∈ dom s₂ a → x ∈ dom s a) ∧ (dom s a ≠ [] → dom s₂ a ≠ []) ∧
    ((dom s a).Nodup → (dom s₂ a).Nodup)

theorem Pres.refl (s : Cands) : Pres s s := fun _ => ⟨fun _ h => h, id, id⟩

theorem Pres.trans {s₁ s₂ s₃ : Cands} (h1 : Pres s₁ s₂) (h2 : Pres s₂ s₃) :
    Pres s₁ s₃ := by
  intro a
  obtain ⟨m1, n1, d1⟩ := h1 a
  obtain ⟨m2, n2, d2⟩ := h2 a
  exact ⟨fun x hx => m1 x (m2 x hx), fun h => n2 (n1 h), fun h => d2 (d1 h)⟩

theorem pres_erase (s : Cands) (c : Cell) (d : Nat) (hlen : 1 < (dom s c).length) :
    Pres s (setDom s c ((dom s c).erase d)) := by
  intro a
  by_cases hac : a = c
  · subst hac
    have hne : dom s a ≠ [] := by
      intro h0; rw [h0] at hlen; simp at hlen
    rw [dom_setDom_self s a _ (dom_nonempty_lt s a hne)]
    refine ⟨fun x hx => List.mem_of_mem_erase hx, fun _ => ?_, fun hnd => hnd.erase d⟩
    intro h0
    have hl := congrArg List.length h0
    simp at hl
    rcases hl with h1 | h1
    · exact hne h1
    · rw [h1] at hlen; simp at hlen
  · rw [dom_setDom_ne s c a _ hac]
    exact ⟨fun _ h => h, id, id⟩

theorem presAll : ∀ fuel : Nat,
    ∀ call : ECall, ∀ out : Bool × Cands, engine fuel call = some out →
    Pres (match call with
          | .elim s _ _ => s | .eloop s _ _ => s | .uloop s _ _ => s
          | .assign s _ _ => s | .aloop s _ _ => s) out.2 := by
  intro fuel
  induction fuel with
  | zero => intro call out h; exact absurd h (by simp [engine])
  | succ n ih =>
    intro call out h
    match call with
    | .elim s c d =>
      exact ih (.eloop s [(c, d)] []) out h
    | .eloop s ts ps =>
      cases ts with
      | nil =>
        cases h
        exact Pres.refl s
      | cons t rest =>
        obtain ⟨c, d⟩ := t
        rw [show engine (n+1) (.eloop s ((c,d)::rest) ps) =
          elimLoop (n+1) s ((c,d)::rest) ps from rfl, elimLoop_succ_cons] at h
        split at h
        · exact ih (.eloop s rest ps) out h
        · split at h
          · exact ih (.eloop s rest ((c,d)::ps)) out h
          · by_cases hlen : 1 < (dom s c).length
            · simp only [if_pos hlen] at h
              have hp1 : Pres s (setDom s c ((dom s c).erase d)) := pres_erase s c d hlen
              split at h
              · cases h; exact hp1
              · split at h
                · exact absurd h (by simp)
                · rename_i s3 heq
                  cases h
                  exact hp1.trans (ih _ _ heq)
                · rename_i s3 heq
                  exact hp1.trans ((ih _ _ heq).trans (ih _ _ h))
            · simp only [if_neg hlen] at h
              split at h
              · cases h; exact Pres.refl s
              · split at h
                · exact absurd h (by simp)
                · rename_i s3 heq
                  cases h
                  exact ih _ _ heq
                · rename_i s3 heq
                  exact (ih _ _ heq).trans (ih _ _ h)
    | .uloop s us d =>
      cases us with
      | nil =>
        cases h
        exact Pres.refl s
      | cons u us2 =>
        rw [show engine (n+1) (.uloop s (u::us2) d) =
          unitLoop (n+1) s (u::us2) d from rfl, unitLoop_succ_cons] at h
        split at h
        · cases h; exact Pres.refl s
        · split at h
          · exact absurd h (by simp)
          · rename_i s2 heq
            cases h
            exact ih _ _ heq
          · rename_i s2 heq
            exact (ih _ _ heq).trans (ih _ _ h)
        · exact ih _ _ h
    | .assign s c d =>
      exact ih (.aloop s c ((dom s c).erase d)) out h
    | .aloop s c vs =>
      cases vs with
      | nil =>
        cases h
        exact Pres.refl s
      | cons v rest =>
        rw [show engine (n+1) (.aloop s c (v::rest)) =
          assignLoop (n+1) s c (v::rest) from rfl, assignLoop_succ_cons] at h
        split at h
        · exact absurd h (by simp)
        · rename_i s2 heq
          cases h
          exact ih _ _ heq
        · rename_i s2 heq
          exact (ih _ _ heq).trans (ih _ _ h)

theorem presElim {fuel : Nat} {s : Cands} {c : Cell} {d : Nat} {out : Bool × Cands}
    (h : elimF fuel s c d = some out) : Pres s out.2 :=
  presAll fuel (.elim s c d) out h

theorem presElimLoop {fuel : Nat} {s : Cands} {ts ps : List (Cell × Nat)}
    {out : Bool × Cands} (h : elimLoop fuel s ts ps = some out) : Pres s out.2 :=
  presAll fuel (.eloop s ts ps) out h

theorem presUnit {fuel : Nat} {s : Cands} {us : List (List Cell)} {d : Nat}
    {out : Bool × Cands} (h : unitLoop fuel s us d = some out) : Pres s out.2 :=
  presAll fuel (.uloop s us d) out h

theorem presAssign {fuel : Nat} {s : Cands} {c : Cell} {d : Nat} {out : Bool × Cands}
    (h : assignF fuel s c d = some out) : Pres s out.2 :=
  presAll fuel (.assign s c d) out h

theorem presAssignLoop {fuel : Nat} {s : Cands} {c : Cell} {vs : List Nat}
    {out : Bool × Cands} (h : assignLoop fuel s c vs = some out) : Pres s out.2 :=
  presAll fuel (.aloop s c vs) out h

theorem eq_singleton_of_sub {l : List Nat} {x : Nat} (hsub : ∀ y ∈ l, y = x)
    (hne : l ≠ []) (hnd : l.Nodup) : l = [x] := by
  cases l with
  | nil => exact absurd rfl hne
  | cons a t =>
    have ha : a = x := hsub a (by simp)
    subst ha
    cases t with
    | nil => rfl
    | cons b t2 =>
      have hb : b = a := hsub b (by simp [hsub])
      subst hb
      simp at hnd

theorem pres_singleton {s s₂ : Cands} {c : Cell} {d : Nat} (hp : Pres s s₂)
    (h : dom s c = [d]) : dom s₂ c = [d] := by
  obtain ⟨hm, hn, hd⟩ := hp c
  refine eq_singleton_of_sub (fun y hy => ?_) (hn (by rw [h]; simp)) (hd (by rw [h]; simp))
  have := hm y hy
  rw [h] at this
  simpa using this

theorem singleton_of_len_le {l : List Nat} {d : Nat} (hmem : d ∈ l)
    (hlen : ¬ 1 < l.length) : l = [d] := by
  cases l with
  | nil => simp at hmem
  | cons a t =>
    cases t with
    | nil => simp at hmem; simp [hmem]
    | cons b t2 => simp at hlen

theorem elimF_remove {fuel : Nat} {s : Cands} {c : Cell} {d : Nat} {out : Bool × Cands}
    (h : elimF fuel s c d = some out) (hnd : (dom s c).Nodup) :
    (dom s c ≠ [d] → d ∉ dom out.2 c) ∧ (dom s c = [d] → dom out.2 c = [d]) := by
  cases fuel with
  | zero => simp [elimF_zero] at h
  | succ n =>
    rw [elimF_succ] at h
    cases n with
    | zero => simp [elimLoop_zero] at h
    | succ m =>
      rw [elimLoop_succ_cons] at h
      rw [if_neg (by simp)] at h
      by_cases hc : (dom s c).contains d = false
      · rw [if_pos hc] at h
        have hdnot : d ∉ dom s c := by simpa [List.elem_eq_mem] using hc
        cases m with
        | zero => simp [elimLoop_zero] at h
        | succ k =>
          rw [elimLoop_succ_nil] at h
          cases h
          refine ⟨fun _ => hdnot, fun hsing => absurd (by rw [hsing]; simp) hdnot⟩
      · rw [if_neg hc] at h
        have hdin : d ∈ dom s c := by
          rcases Bool.eq_false_or_eq_true ((dom s c).contains d) with h1 | h1
          · exact List.elem_iff.1 h1
          · exact absurd h1 hc
        by_cases hlen : 1 < (dom s c).length
        · simp only [if_pos hlen] at h
          have hlt : c < s.length :=
            dom_nonempty_lt s c (by intro h0; rw [h0] at hlen; simp at hlen)
          have hdom2 : dom (setDom s c ((dom s c).erase d)) c = (dom s c).erase d :=
            dom_setDom_self s c _ hlt
          have hnotin : d ∉ dom (setDom s c ((dom s c).erase d)) c := by
            rw [hdom2]
            intro hmem
            exact absurd ((List.Nodup.mem_erase_iff hnd).1 hmem).1 (by simp)
          have hout : ∀ x, x ∈ dom out.2 c → x ∈ dom (setDom s c ((dom s c).erase d)) c := by
            split at h
            · cases h; exact fun x hx => hx
            · split at h
              · exact absurd h (by simp)
              · rename_i s3 heq
                cases h
                exact fun x hx => ((presUnit heq) c).1 x hx
              · rename_i s3 heq
                exact fun x hx =>
                  ((presUnit heq) c).1 x (((presElimLoop h) c).1 x hx)
          refine ⟨fun _ hmem => hnotin (hout d hmem),
            fun hsing => by rw [hsing] at hlen; simp at hlen⟩
        · simp only [if_neg hlen] at h
          have hsing : dom s c = [d] := singleton_of_len_le hdin hlen
          have hout : Pres s out.2 := by
            split at h
            · cases h; exact Pres.refl s
            · split at h
              · exact absurd h (by simp)
              · rename_i s3 heq
                cases h
                exact presUnit heq
              · rename_i s3 heq
                exact (presUnit heq).trans (presElimLoop h)
          exact ⟨fun hne => absurd hsing hne, fun _ => pres_singleton hout hsing⟩

theorem assignLoop_sub : ∀ fuel : Nat, ∀ s : Cands, ∀ c : Cell, ∀ vs : List Nat,
    ∀ s₂ : Cands, assignLoop fuel s c vs = some (true, s₂) → (dom s c).Nodup →
    (∃ x, dom s₂ c = [x]) ∨ (∀ v ∈ vs, v ∉ dom s₂ c) := by
  intro fuel
  induction fuel with
  | zero => intro s c vs s₂ h _; simp [assignLoop_zero] at h
  | succ n ih =>
    intro s c vs s₂ h hnd
    cases vs with
    | nil =>
      rw [assignLoop_succ_nil] at h
      cases h
      exact Or.inr (by simp)
    | cons v rest =>
      rw [assignLoop_succ_cons] at h
      split at h
      · exact absurd h (by simp)
      · rename_i s3 heq
        simp at h
      · rename_i s3 heq
        by_cases hv : dom s c = [v]
        · have h3 : dom s3 c = [v] := (elimF_remove heq hnd).2 hv
          exact Or.inl ⟨v, pres_singleton (presAssignLoop h) h3⟩
        · have hvnot : v ∉ dom s3 c := (elimF_remove heq hnd).1 hv
          have hnd3 : (dom s3 c).Nodup := ((presElim heq) c).2.2 hnd
          rcases ih s3 c rest s₂ h hnd3 with hx | hall
          · exact Or.inl hx
          · refine Or.inr (fun w hw => ?_)
            rcases List.mem_cons.1 hw with hwv | hwr
            · subst hwv
              intro hmem
              exact hvnot (((presAssignLoop h) c).1 w hmem)
            · exact hall w hwr

theorem assignF_singleton {fuel : Nat} {s : Cands} {c : Cell} {d : Nat} {s₂ : Cands}
    (h : assignF fuel s c d = some (true, s₂)) (hne : dom s c ≠ [])
    (hnd : (dom s c).Nodup) : ∃ x, dom s₂ c = [x] := by
  cases fuel with
  | zero => simp [assignF_zero] at h
  | succ n =>
    rw [assignF_succ] at h
    rcases assignLoop_sub n s c _ s₂ h hnd with hx | hall
    · exact hx
    · obtain ⟨hm, hn, hd⟩ := (presAssignLoop h) c
      refine ⟨d, eq_singleton_of_sub (fun y hy => ?_) (hn hne) (hd hnd)⟩
      by_contra hyd
      exact hall y ((List.Nodup.mem_erase_iff hnd).2 ⟨hyd, hm y hy⟩) hy

theorem elim_noop {s₂ : Cands} {c : Cell} {d : Nat} (hd : d ∉ dom s₂ c) :
    ∀ k : Nat, elimF (k + 3) s₂ c d = some (true, s₂) := by
  intro k
  have hcon : (dom s₂ c).contains d = false := by
    simp [List.elem_eq_mem, hd]
  rw [elimF_succ, elimLoop_succ_cons, if_neg (by simp), if_pos hcon,
    elimLoop_succ_nil]

def specRowUnit (c : Cell) : List Cell :=
  allCells.filter (fun p => rowOf p == rowOf c)
def specColUnit (c : Cell) : List Cell :=
  allCells.filter (fun p => colOf p == colOf c)
def specBoxUnit (c : Cell) : List Cell :=
  allCells.filter (fun p => boxRowOf p == boxRowOf c && boxColOf p == boxColOf c)

def dPlaces (s : Cands) (u : List Cell) (d : Nat) : List Cell :=
  u.filter (fun p => (dom s p).contains d)

theorem unitLoop_cons_nil {f : Nat} {s : Cands} {u : List Cell} {us : List (List Cell)}
    {d : Nat} (h : dPlaces s u d = []) :
    unitLoop (f + 1) s (u :: us) d = some (false, s) := by
  rw [unitLoop_succ_cons, show u.filter (fun p => (dom s p).contains d) = [] from h]

theorem unitLoop_cons_ge2 {f : Nat} {s : Cands} {u : List Cell} {us : List (List Cell)}
    {d : Nat} (h : 2 ≤ (dPlaces s u d).length) :
    unitLoop (f + 1) s (u :: us) d = unitLoop f s us d := by
  rw [unitLoop_succ_cons]
  rcases hr : u.filter (fun p => (dom s p).contains d) with _ | ⟨p, _ | ⟨q, qs⟩⟩
  · rw [dPlaces, hr] at h; simp at h
  · rw [dPlaces, hr] at h; simp at h
  · rfl

theorem unitLoop_cons_one {f : Nat} {s : Cands} {u : List Cell} {us : List (List Cell)}
    {d : Nat} {p : Cell} (h : dPlaces s u d = [p]) :
    unitLoop (f + 1) s (u :: us) d =
      (match assignF f s p d with
       | none => none
       | some (false, s2) => some (false, s2)
       | some (true, s2) => unitLoop f s2 us d) := by
  rw [unitLoop_succ_cons, show u.filter (fun q => (dom s q).contains d) = [p] from h]

theorem elimLoop_first_unit {f : Nat} {s s2 : Cands} {c : Cell} {d : Nat}
    (hmem : d ∈ dom s c)
    (hs2 : s2 = (if 1 < (dom s c).length then setDom s c ((dom s c).erase d) else s)) :
    elimLoop (f + 1) s [(c, d)] [] =
      (match unitLoop f s2 [rowPeers c, colPeers c, boxPeers c] d with
       | none => none
       | some (false, s3) => some (false, s3)
       | some (true, s3) =>
         elimLoop f s3
           (if (dom s2 c).length = 1
            then ((peers c).map (fun q => (q, (dom s2 c).headD 0))) ++ []
            else []) [(c, d)]) := by
  have hcon : ¬ ((dom s c).contains d = false) := by
    simp [List.elem_eq_mem, hmem]
  have hne2 : (dom s2 c).isEmpty = false := by
    rw [hs2]
    split
    · rename_i hlen
      have hlt : c < s.length :=
        dom_nonempty_lt s c (by intro h0; rw [h0] at hlen; simp at hlen)
      rw [dom_setDom_self s c _ hlt, List.isEmpty_eq_false_iff_exists_mem]
      have hle : ((dom s c).erase d).length = (dom s c).length - 1 :=
        List.length_erase_of_mem hmem
      exact List.exists_mem_of_length_pos (by omega)
    · rw [List.isEmpty_eq_false_iff_exists_mem]
      exact ⟨d, hmem⟩
  rw [elimLoop_succ_cons, if_neg (by simp), if_neg hcon, ← hs2]
  simp only [hne2, Bool.false_eq_true, if_false]

theorem elimLoop_first_unit_fail {f : Nat} {s s2 s3 : Cands} {c : Cell} {d : Nat}
    (hmem : d ∈ dom s c)
    (hs2 : s2 = (if 1 < (dom s c).length then setDom s c ((dom s c).erase d) else s))
    (hu : unitLoop f s2 [rowPeers c, colPeers c, boxPeers c] d = some (false, s3)) :
    elimLoop (f + 1) s [(c, d)] [] = some (false, s3) := by
  have hcon : ¬ ((dom s c).contains d = false) := by
    simp [List.elem_eq_mem, hmem]
  have hne2 : (dom s2 c).isEmpty = false := by
    rw [hs2]
    split
    · rename_i hlen
      have hlt : c < s.length :=
        dom_nonempty_lt s c (by intro h0; rw [h0] at hlen; simp at hlen)
      rw [dom_setDom_self s c _ hlt, List.isEmpty_eq_false_iff_exists_mem]
      have hle : ((dom s c).erase d).length = (dom s c).length - 1 :=
        List.length_erase_of_mem hmem
      exact List.exists_mem_of_length_pos (by omega)
    · rw [List.isEmpty_eq_false_iff_exists_mem]
      exact ⟨d, hmem⟩
  rw [elimLoop_succ_cons, if_neg (by simp), if_neg hcon, ← hs2]
  simp only [hne2, Bool.false_eq_true, if_false, hu]

/-! ## Concrete states used by the counterexamples and witnesses -/

/-- Cell `A1` constrained to `[1]`, all other domains full. -/
def elimOneState : Cands := mkCands [(0, [1])]

/-- Cell `A1` is `[1]` and all of row `A` lacks the digit 1; all other
domains full. -/
def rowBlockedState : Cands :=
  mkCands ([(0, [1])] ++ (List.range 8).map (fun i => (i + 1, [2,3,4,5,6,7,8,9])))

/-- A state in which `assign("A1", 1)` succeeds although a nested
cascade removes 1 from `A1` itself: `A1 = [1,2,3]`, the box peer
`B2 = [2,5]` is the unique box-peer holder of 2, a chain
`E2 = [2,7]`, `E1 = [1,7]` relays the collapse back into `A1`, the
remaining box peers of `A1` lack the digit 2, and two full transversal
patterns of cells pinned to `[3]` keep every later unit check
satisfiable.  All other domains are full. -/
def cascadeState : Cands := mkCands
  ([(0, [1,2,3]), (10, [2,5]), (36, [1,7]), (37, [2,7])] ++
   [(2, [1,3,4,5,6,7,8,9]), (9, [1,3,4,5,6,7,8,9]), (11, [1,3,4,5,6,7,8,9]),
    (18, [1,3,4,5,6,7,8,9]), (19, [1,3,4,5,6,7,8,9]), (20, [1,3,4,5,6,7,8,9])] ++
   ([15,21,35,41,47,61,67,73, 1,16,22,27,42,48,62,68,74].map (fun c => (c, [3]))))

/-- `A1 = [1,2,3]`, its row peer `A2 = [1]`, and the rest of row `A`
lacks the digit 1; all other domains full.  After `eliminate("A1", 1)`
removes 1 from `A1`, the row-peer set holds exactly one place for 1 —
`A2` — so the unit check assigns 1 there. -/
def lonePeerState : Cands := mkCands
  ([(0, [1, 2, 3]), (1, [1])] ++
   (List.range 7).map (fun i => (i + 2, [2, 3, 4, 5, 6, 7, 8, 9])))

/-- `lonePeerState` after `eliminate("A1", 1)` has removed 1 from `A1`. -/
def lonePeerS2 : Cands := setDom lonePeerState 0 ((dom lonePeerState 0).erase 1)

/-- Cell `A1` constrained to `[2,3]`, everything else full. -/
def pairState : Cands := mkCands [(0, [2, 3])]

/-- Cell `A1` constrained to `[5]`, everything else full. -/
def singletonState : Cands := mkCands [(0, [5])]

/-- The C1 scenario: an 81-character puzzle string with the digit 5 at
both `A2` and `A4` — twice in row `A` — and blanks elsewhere. -/
def badStr : List Char := ['.', '5', '.', '5'] ++ List.replicate 77 '.'

/-- The grid `Sudoku::from_string` parses from `badStr`. -/
def badGrid : Grid :=
  match fromString badStr with
  | some (Except.ok g) => g
  | _ => emptyGrid

/-! ## C1 -/

set_option maxRecDepth 100000 in
set_option maxHeartbeats 8000000 in
/-- C1: a puzzle string placing the digit 5 twice in row `A` parses
fine, and during `initialize_candidates_heavy` some `assign` call does
return `false` (the propagation finds the contradiction) — but the
initializer discards that boolean (sudoku.rs line 191 ignores the
result of `self.assign`), so initialization completes without
reporting failure; `initialize_candidates_lw` even leaves cell `A2`
with an *empty* candidate domain and no signal at all.  The claim —
that initialization detects the contradiction and the solve reports
failure — describes what the code was meant to do, not what it does. -/
theorem c1_duplicate_row_init_bug :
    (fromString badStr).map Except.toOption = some (some badGrid) ∧
    (heavyInitAux 400 badGrid).map Prod.snd = some false ∧
    dom (lwInit badGrid) 1 = [] := by
  refine ⟨by decide, by decide, by decide⟩

/-! ## C2 -/

set_option maxRecDepth 100000 in
set_option maxHeartbeats 8000000 in
/-- C2 counterexample: in `elimOneState`, cell `A1`'s domain is exactly
`[1]`, so removing 1 would empty it; the claim demands failure, and,
for a success, the digit's absence.  Instead `eliminate("A1", 1)`
*succeeds* and leaves the digit in place: the source only removes a
digit while more than one candidate remains (sudoku.rs lines 226-228),
so the singleton survives and no contradiction is reported. -/
theorem c2_counterexample :
    dom elimOneState 0 = [1] ∧
    (elimF 300 elimOneState 0 1).map (fun o => (o.1, dom o.2 0)) =
      some (true, [1]) := by
  refine ⟨by decide, by decide⟩

/-- C2 (amended): if `eliminate(cell, digit)` returns success and the
cell's domain was not exactly `{digit}`, the digit is absent from the
cell's domain afterwards; when the domain *is* exactly `{digit}` —
the case in which removal would empty it — the removal is skipped and
the domain is left exactly `{digit}` (eliminate never empties a
domain, and need not fail). -/
theorem c2_eliminate_success_removes {fuel : Nat} {s : Cands} {c : Cell} {d : Nat}
    {r : Bool} {s₂ : Cands} (h : elimF fuel s c d = some (r, s₂))
    (hnd : (dom s c).Nodup) :
    (r = true → dom s c ≠ [d] → d ∉ dom s₂ c) ∧
    (dom s c = [d] → dom s₂ c = [d]) :=
  ⟨fun _ hne => (elimF_remove h hnd).1 hne, (elimF_remove h hnd).2⟩

/-- Witness for C2: a concrete run of the theorem on `pairState`. -/
theorem c2_eliminate_success_removes_witness : 1 ∉ dom pairState 0 := by
  have h : elimF 3 pairState 0 1 = some (true, pairState) := by decide
  exact (c2_eliminate_success_removes h (by decide)).1 rfl (by decide)

/-! ## C3 -/

set_option maxRecDepth 100000 in
set_option maxHeartbeats 8000000 in
/-- C3 counterexample: in `rowBlockedState` the full nine-cell row unit
of `A1` has exactly one cell where 1 is still possible — `A1` itself —
and the column and box units have at least two each, so by the claim
(units are nine-cell rows/columns/boxes) `eliminate("A1", 1)` would
assign 1 at `A1` and no unit-failure condition would hold.  The code
returns failure: its unit check scans only the 8-cell `row_peers` set,
which excludes the cell itself and holds no place for 1. -/
theorem c3_counterexample :
    (elimF 300 rowBlockedState 0 1).map Prod.fst = some false ∧
    (dPlaces rowBlockedState (specRowUnit 0) 1).length = 1 ∧
    2 ≤ (dPlaces rowBlockedState (specColUnit 0) 1).length ∧
    2 ≤ (dPlaces rowBlockedState (specBoxUnit 0) 1).length ∧
    dom rowBlockedState 0 = [1] := by
  refine ⟨by decide, by decide, by decide, by decide, by decide⟩

/-- C3 (amended): the unit checks of `eliminate(cell, digit)` range
over the cell's three 8-cell *peer* sets (row-, column-, box-peers,
the cell itself excluded), not full nine-cell units.  Writing `s2` for
the state after the initial removal: if `digit` has no place in the
row peers, eliminate fails; likewise for the column peers when the row
peers hold at least two places, and for the box peers when both hold
at least two.  And if the row-peer set holds exactly one place `p`,
eliminate assigns `digit` there: the call reduces to `assign(p, digit)`
— a failed assignment aborts eliminate with that failure, a successful
one feeds its state to the remaining unit checks and the work-list —
and a successful assignment leaves `p`'s domain a singleton. -/
theorem c3_unit_checks_use_peer_sets : ∀ fuel : Nat, ∀ s : Cands, ∀ c : Cell, ∀ d : Nat,
    d ∈ dom s c →
    ∀ s2 : Cands,
    s2 = (if 1 < (dom s c).length then setDom s c ((dom s c).erase d) else s) →
    ((dPlaces s2 (rowPeers c) d = [] → elimF (fuel + 5) s c d = some (false, s2)) ∧
     (2 ≤ (dPlaces s2 (rowPeers c) d).length → dPlaces s2 (colPeers c) d = [] →
       elimF (fuel + 5) s c d = some (false, s2)) ∧
     (2 ≤ (dPlaces s2 (rowPeers c) d).length → 2 ≤ (dPlaces s2 (colPeers c) d).length →
       dPlaces s2 (boxPeers c) d = [] → elimF (fuel + 5) s c d = some (false, s2)) ∧
     (∀ p : Cell, dPlaces s2 (rowPeers c) d = [p] →
       (elimF (fuel + 5) s c d =
         (match assignF (fuel + 2) s2 p d with
          | none => none
          | some (false, s3) => some (false, s3)
          | some (true, s3) =>
            match unitLoop (fuel + 2) s3 [colPeers c, boxPeers c] d with
            | none => none
            | some (false, s4) => some (false, s4)
            | some (true, s4) =>
              elimLoop (fuel + 3) s4
                (if (dom s2 c).length = 1
                 then ((peers c).map (fun q => (q, (dom s2 c).headD 0))) ++ []
                 else []) [(c, d)])) ∧
       (∀ s3 : Cands, assignF (fuel + 2) s2 p d = some (true, s3) →
         (dom s2 p).Nodup → ∃ x, dom s3 p = [x]))) := by
  intro fuel s c d hmem s2 hs2
  refine ⟨?_, ?_, ?_, ?_⟩
  · intro hrow
    rw [elimF_succ]
    exact elimLoop_first_unit_fail hmem hs2 (unitLoop_cons_nil hrow)
  · intro hrow hcol
    rw [elimF_succ]
    refine elimLoop_first_unit_fail hmem hs2 ?_
    rw [unitLoop_cons_ge2 hrow]
    exact unitLoop_cons_nil hcol
  · intro hrow hcol hbox
    rw [elimF_succ]
    refine elimLoop_first_unit_fail hmem hs2 ?_
    rw [unitLoop_cons_ge2 hrow, unitLoop_cons_ge2 hcol]
    exact unitLoop_cons_nil hbox
  · intro p hrow
    constructor
    · have h1 : elimF (fuel + 5) s c d = elimLoop (fuel + 4) s [(c, d)] [] :=
        elimF_succ (fuel + 4) s c d
      have h2 : elimLoop (fuel + 4) s [(c, d)] [] =
          (match unitLoop (fuel + 3) s2 [rowPeers c, colPeers c, boxPeers c] d with
           | none => none
           | some (false, s3) => some (false, s3)
           | some (true, s3) =>
             elimLoop (fuel + 3) s3
               (if (dom s2 c).length = 1
                then ((peers c).map (fun q => (q, (dom s2 c).headD 0))) ++ []
                else []) [(c, d)]) := elimLoop_first_unit hmem hs2
      rw [h1, h2, unitLoop_cons_one hrow]
      rcases hA : assignF (fuel + 2) s2 p d with _ | ⟨b, s3⟩
      · rfl
      · cases b
        · rfl
        · rcases unitLoop (fuel + 2) s3 [colPeers c, boxPeers c] d with _ | ⟨b4, s4⟩
          · rfl
          · cases b4 <;> rfl
    · intro s3 hA hnd
      have hp : p ∈ dPlaces s2 (rowPeers c) d := by
        rw [hrow]
        exact List.mem_singleton_self p
      simp only [dPlaces, List.mem_filter] at hp
      have hd2 : d ∈ dom s2 p := by
        have := hp.2
        simpa [List.elem_eq_mem] using this
      exact assignF_singleton hA (by intro h0; rw [h0] at hd2; simp at hd2) hnd

set_option maxRecDepth 100000 in
set_option maxHeartbeats 8000000 in
/-- Witness for C3: the failure half applied to `rowBlockedState`
(row peers hold no place for 1, eliminate fails), and the lone-peer
half applied to `lonePeerState` (the row peers hold exactly one place,
`A2`; eliminate succeeds having assigned 1 there, and `A2`'s domain is
the singleton `[1]`). -/
theorem c3_unit_checks_use_peer_sets_witness :
    elimF 300 rowBlockedState 0 1 = some (false, rowBlockedState) ∧
    elimF 300 lonePeerState 0 1 = some (true, lonePeerS2) ∧
    (∃ x, dom lonePeerS2 1 = [x]) ∧
    dom lonePeerS2 1 = [1] := by
  refine ⟨?_, ?_, ?_, by decide⟩
  · exact (c3_unit_checks_use_peer_sets 295 rowBlockedState 0 1 (by decide)
      rowBlockedState (by decide)).1 (by decide)
  · have h := ((c3_unit_checks_use_peer_sets 295 lonePeerState 0 1 (by decide)
      lonePeerS2 (by decide)).2.2.2 1 (by decide)).1
    exact h.trans (by decide)
  · exact ((c3_unit_checks_use_peer_sets 295 lonePeerState 0 1 (by decide)
      lonePeerS2 (by decide)).2.2.2 1 (by decide)).2 lonePeerS2 (by decide) (by decide)

/-! ## C4 -/

set_option maxRecDepth 100000 in
set_option maxHeartbeats 16000000 in
/-- C4 counterexample: in `cascadeState`, `assign("A1", 1)` returns
success although 1 *was* among `A1`'s candidates `[1,2,3]` — and the
resulting domain of `A1` is `[3]`, not `{1}`: while `assign`
eliminates 2, a forced placement collapses a chain of cells whose
cascade eliminates 1 from `A1` itself, and the final candidate 3 then
survives because `eliminate` never removes a last candidate. -/
theorem c4_counterexample :
    1 ∈ dom cascadeState 0 ∧
    (assignF 700 cascadeState 0 1).map (fun o => (o.1, dom o.2 0)) =
      some (true, [3]) := by
  refine ⟨by decide, by decide⟩

/-- C4 (amended): when `assign(cell, d)` returns success and the
cell's domain was nonempty, the domain afterwards is exactly a
singleton — but not necessarily `{d}`: the surviving candidate can
differ from `d`, both when `d` was not a candidate at all and when a
propagation cascade removes `d` during the assignment. -/
theorem c4_assign_success_singleton {fuel : Nat} {s : Cands} {c : Cell} {d : Nat}
    {s₂ : Cands} (h : assignF fuel s c d = some (true, s₂))
    (hne : dom s c ≠ []) (hnd : (dom s c).Nodup) : ∃ x, dom s₂ c = [x] :=
  assignF_singleton h hne hnd

/-- Witness for C4: the theorem applied to `singletonState`. -/
theorem c4_assign_success_singleton_witness : ∃ x, dom singletonState 0 = [x] := by
  have h : assignF 2 singletonState 0 5 = some (true, singletonState) := by decide
  exact c4_assign_success_singleton h (by decide) (by decide)

/-! ## C5 -/

set_option maxRecDepth 100000 in
set_option maxHeartbeats 16000000 in
/-- C5 counterexample: in `elimOneState` the first
`eliminate("A1", 1)` succeeds (leaving `A1 = [1]`, its peers stripped
of 1), but the *second* identical call returns failure: it finds no
place for 1 among `A1`'s row peers.  Calling eliminate twice is not
the same as calling it once — the result flips from success to
failure. -/
theorem c5_counterexample :
    (elimF 300 elimOneState 0 1).map Prod.fst = some true ∧
    ((elimF 300 elimOneState 0 1).bind (fun o => elimF 300 o.2 0 1)).map Prod.fst =
      some false := by
  refine ⟨by decide, by decide⟩

/-- C5 (amended): idempotence holds exactly when the first call
actually removed the digit: if `eliminate(cell, d)` succeeds and the
cell's domain was not exactly `{d}`, the digit is gone afterwards, so
a second identical call is a no-op — it returns success with the very
same candidate map.  (When the domain was exactly `{d}` the second
call can fail, as the counterexample shows.) -/
theorem c5_eliminate_idempotent_after_removal {fuel : Nat} {s : Cands} {c : Cell}
    {d : Nat} {s₂ : Cands} (h : elimF fuel s c d = some (true, s₂))
    (hnd : (dom s c).Nodup) (hne : dom s c ≠ [d]) :
    ∀ k, elimF (k + 3) s₂ c d = some (true, s₂) :=
  elim_noop ((elimF_remove h hnd).1 hne)

/-- Witness for C5: the theorem applied to `pairState`. -/
theorem c5_eliminate_idempotent_after_removal_witness :
    elimF 3 pairState 0 1 = some (true, pairState) := by
  have h : elimF 3 pairState 0 1 = some (true, pairState) := by decide
  exact c5_eliminate_idempotent_after_removal h (by decide) (by decide) 0

/-! ### C6 and C7: from_string parsing and the brute-force search -/

theorem digit_utf8 (ch : Char) (h : ch.isDigit) : ch.utf8Size = 1 := by
  simp [Char.isDigit] at h
  have h2n : ch.val.toNat ≤ 57 := h.2
  unfold Char.utf8Size
  have hle : ch.val ≤ UInt32.ofNatCore 127 Char.utf8Size.proof_1 :=
    show ch.val.toNat ≤ 127 by omega
  rw [if_pos hle]

def validChar (ch : Char) : Prop := ch = '.' ∨ ch.isDigit

instance : DecidablePred validChar := fun ch => by
  unfold validChar
  infer_instance

theorem validChar_utf8 {ch : Char} (h : validChar ch) : ch.utf8Size = 1 := by
  rcases h with h | h
  · subst h; decide
  · exact digit_utf8 ch h

theorem utf8Len_eq_length {s : List Char} (h : ∀ ch ∈ s, ch.utf8Size = 1) :
    utf8Len s = s.length := by
  induction s with
  | nil => rfl
  | cons a t ih =>
    simp only [utf8Len, List.map_cons, List.sum_cons, List.length_cons] at *
    rw [h a (by simp), ih (fun ch hch => h ch (by simp [hch]))]
    omega

theorem length_le_utf8Len (s : List Char) : s.length ≤ utf8Len s := by
  induction s with
  | nil => simp [utf8Len]
  | cons a t ih =>
    have := Char.utf8Size_pos a
    simp only [utf8Len, List.map_cons, List.sum_cons, List.length_cons] at *
    omega

theorem parseCell_ok {s : List Char} {i : Nat} {ch : Char}
    (hget : s.get? i = some ch) (hv : validChar ch) :
    ∃ v, parseCell s i = some (Except.ok v) := by
  simp only [parseCell, hget]
  by_cases hdot : ch = '.'
  · subst hdot
    exact ⟨0, by simp⟩
  · rcases hv with h | h
    · exact absurd h hdot
    · have hd := h
      simp only [Char.isDigit] at hd
      have h57 : ch.val.toNat ≤ 57 := by
        have := hd
        simp at this
        exact this.2
      have hz : ('0').val.toNat = 48 := by decide
      refine ⟨ch.toNat - '0'.toNat, ?_⟩
      rw [if_neg hdot, if_pos h, if_neg ?_]
      simp only [Char.toNat]
      omega

theorem parseCell_of_ok {s : List Char} {i : Nat} {v : Nat}
    (h : parseCell s i = some (Except.ok v)) :
    ∃ ch, s.get? i = some ch ∧ validChar ch := by
  rcases hget : s.get? i with _ | ch
  · simp only [parseCell, hget] at h
    simp at h
  · simp only [parseCell, hget] at h
    refine ⟨ch, rfl, ?_⟩
    by_cases hdot : ch = '.'
    · exact Or.inl hdot
    · rw [if_neg hdot] at h
      by_cases hdig : ch.isDigit
      · exact Or.inr hdig
      · simp [hdig] at h

theorem parseCell_none {s : List Char} {i : Nat} (h : parseCell s i = none) :
    s.get? i = none := by
  rcases hget : s.get? i with _ | ch
  · rfl
  · exfalso
    simp only [parseCell, hget] at h
    by_cases hdot : ch = '.'
    · simp [hdot] at h
    · rw [if_neg hdot] at h
      by_cases hdig : ch.isDigit
      · rw [if_pos hdig] at h
        split at h <;> simp at h
      · simp [hdig] at h

theorem loop_ok {s : List Char} : ∀ l : List (Nat × Nat), ∀ g : Grid,
    (∀ rc ∈ l, ∃ ch, s.get? (9 * rc.1 + rc.2) = some ch ∧ validChar ch) →
    ∃ g2, fromStringLoop s g l = some (Except.ok g2) := by
  intro l
  induction l with
  | nil => exact fun g _ => ⟨g, rfl⟩
  | cons rc rest ih =>
    intro g hall
    obtain ⟨ch, hget, hv⟩ := hall rc (by simp)
    obtain ⟨v, hp⟩ := parseCell_ok hget hv
    obtain ⟨r, c⟩ := rc
    rw [fromStringLoop, hp]
    exact ih _ (fun rc2 h2 => hall rc2 (by simp [h2]))

theorem loop_ok_all {s : List Char} : ∀ l : List (Nat × Nat), ∀ g g2 : Grid,
    fromStringLoop s g l = some (Except.ok g2) →
    ∀ rc ∈ l, ∃ ch, s.get? (9 * rc.1 + rc.2) = some ch ∧ validChar ch := by
  intro l
  induction l with
  | nil => intro g g2 _ rc h; simp at h
  | cons rc0 rest ih =>
    intro g g2 h rc hmem
    obtain ⟨r, c⟩ := rc0
    rw [fromStringLoop] at h
    rcases hp : parseCell s (9 * r + c) with _ | e
    · rw [hp] at h; simp at h
    · rw [hp] at h
      rcases e with e | v
      · simp at h
      · rcases List.mem_cons.1 hmem with h1 | h1
        · subst h1
          exact parseCell_of_ok hp
        · exact ih _ _ h rc h1

theorem loop_none_split {s : List Char} : ∀ l : List (Nat × Nat), ∀ g : Grid,
    fromStringLoop s g l = none →
    ∃ l1 rc l2, l = l1 ++ rc :: l2 ∧ s.get? (9 * rc.1 + rc.2) = none ∧
      ∀ rc2 ∈ l1, ∃ ch, s.get? (9 * rc2.1 + rc2.2) = some ch ∧ validChar ch := by
  intro l
  induction l with
  | nil => intro g h; simp [fromStringLoop] at h
  | cons rc0 rest ih =>
    intro g h
    obtain ⟨r, c⟩ := rc0
    rw [fromStringLoop] at h
    rcases hp : parseCell s (9 * r + c) with _ | e
    · exact ⟨[], (r, c), rest, rfl, parseCell_none hp, by simp⟩
    · rw [hp] at h
      rcases e with e | v
      · simp at h
      · obtain ⟨l1, rc, l2, heq, hnone, hgood⟩ := ih _ h
        refine ⟨(r, c) :: l1, rc, l2, by simp [heq], hnone, ?_⟩
        intro rc2 h2
        rcases List.mem_cons.1 h2 with h3 | h3
        · subst h3
          obtain ⟨ch, hget, hv⟩ := parseCell_of_ok hp
          exact ⟨ch, hget, hv⟩
        · exact hgood rc2 h3

theorem rcPairs_getD : ∀ j : Nat, j < 81 → rcPairs.getD j (0, 0) = (j / 9, j % 9) := by
  decide

theorem rcPairs_length : rcPairs.length = 81 := by decide

theorem rcPairs_idx_lt : ∀ rc ∈ rcPairs, 9 * rc.1 + rc.2 < 81 := by decide

theorem rcPairs_mem_of_lt : ∀ j : Nat, j < 81 → (j / 9, j % 9) ∈ rcPairs := by
  decide

/-- C6: `Sudoku::from_string` on a string whose UTF-8 byte length is not 81
returns the descriptive length error; on an 81-byte string it never hits the
`unwrap` panic (modelled by `none`): it parses successfully when every
character is `'.'` or an ASCII digit, and returns a descriptive error value
when some character is neither. Corrected alphabet: the code also accepts
`'0'` as a blank, not only `'.'` and `'1'`-`'9'` as claimed - see
`c6_counterexample`. -/
theorem c6_from_string_errors_never_panics :
    (∀ s : List Char, utf8Len s ≠ 81 →
      fromString s = some (Except.error "Input string must be 81 characters long.")) ∧
    (∀ s : List Char, utf8Len s = 81 →
      fromString s ≠ none ∧
      ((∀ ch ∈ s, validChar ch) → ∃ g, fromString s = some (Except.ok g)) ∧
      ((∃ ch ∈ s, ¬ validChar ch) → ∃ e, fromString s = some (Except.error e))) := by
  constructor
  · intro s h
    simp [fromString, h]
  · intro s h81
    have hfrom : fromString s = fromStringLoop s emptyGrid rcPairs := by
      simp [fromString, h81]
    have hA : fromString s ≠ none := by
      rw [hfrom]
      intro hn
      obtain ⟨l1, rc, l2, heq, hnone, hgood⟩ := loop_none_split rcPairs emptyGrid hn
      have hL : l1.length + (l2.length + 1) = 81 := by
        have := congrArg List.length heq
        rw [rcPairs_length] at this
        simp at this
        omega
      have hLlt : l1.length < 81 := by omega
      -- rc is the element of rcPairs at position l1.length
      have hrc : rc = (l1.length / 9, l1.length % 9) := by
        have h1 : rcPairs.getD l1.length (0, 0) = rc := by
          rw [heq]
          rw [List.getD, List.get?_eq_getElem?]
          rw [List.getElem?_append_right (le_refl l1.length)]
          simp
        rw [← h1, rcPairs_getD _ hLlt]
      have hidx : 9 * rc.1 + rc.2 = l1.length := by
        rw [hrc]; simp; omega
      have hslen : s.length ≤ l1.length := by
        rw [← hidx]
        exact List.get?_eq_none.1 hnone
      -- every character of s is valid, hence 1 byte
      have hall : ∀ ch ∈ s, ch.utf8Size = 1 := by
        intro ch hch
        obtain ⟨j, hj, hjs⟩ := List.mem_iff_getElem.1 hch
        have hjl : j < l1.length := lt_of_lt_of_le hj hslen
        have hl1j : l1[j] ∈ l1 := List.getElem_mem _
        obtain ⟨ch2, hget2, hv2⟩ := hgood _ hl1j
        have hidxj : 9 * (l1[j]).1 + (l1[j]).2 = j := by
          have h2 : rcPairs.getD j (0, 0) = l1[j] := by
            rw [heq, List.getD, List.get?_eq_getElem?]
            rw [List.getElem?_append_left hjl]
            simp [List.getElem?_eq_getElem hjl]
          have h3 := rcPairs_getD j (by omega)
          rw [h3] at h2
          rw [← h2]
          simp
          omega
        rw [hidxj] at hget2
        rw [List.get?_eq_getElem?] at hget2
        rw [List.getElem?_eq_getElem hj] at hget2
        have : ch = ch2 := by
          rw [hjs] at hget2
          exact (Option.some.injEq _ _ ▸ hget2 : _)
        subst this
        exact validChar_utf8 hv2
      have : utf8Len s = s.length := utf8Len_eq_length hall
      omega
    refine ⟨hA, ?_, ?_⟩
    · intro hv
      have hlen : s.length = 81 := by
        rw [← utf8Len_eq_length (fun ch hch => validChar_utf8 (hv ch hch))]
        exact h81
      rw [hfrom]
      apply loop_ok
      intro rc hrc
      have hidx : 9 * rc.1 + rc.2 < 81 := rcPairs_idx_lt rc hrc
      have hidx2 : 9 * rc.1 + rc.2 < s.length := by omega
      refine ⟨s[9 * rc.1 + rc.2], ?_, ?_⟩
      · rw [List.get?_eq_getElem?, List.getElem?_eq_getElem hidx2]
      · exact hv _ (List.getElem_mem _)
    · intro hbad
      rcases hres : fromString s with _ | e
      · exact absurd hres hA
      · rcases e with e | g
        · exact ⟨e, rfl⟩
        · exfalso
          obtain ⟨ch, hch, hnv⟩ := hbad
          rw [hfrom] at hres
          obtain ⟨j, hj, hjs⟩ := List.mem_iff_getElem.1 hch
          have hj81 : j < 81 := by
            have := length_le_utf8Len s
            omega
          have hmem : (j / 9, j % 9) ∈ rcPairs := rcPairs_mem_of_lt j hj81
          obtain ⟨ch2, hget2, hv2⟩ := loop_ok_all rcPairs emptyGrid g hres _ hmem
          have hidxj : 9 * (j / 9) + j % 9 = j := by omega
          rw [hidxj, List.get?_eq_getElem?, List.getElem?_eq_getElem hj] at hget2
          have : ch = ch2 := by
            rw [hjs] at hget2
            exact (Option.some.injEq _ _ ▸ hget2 : _)
          subst this
          exact hnv hv2

theorem set_getElem_own {α : Type} (l : List α) (i : Nat) (h : i < l.length) :
    l.set i (l[i]) = l := by
  apply List.ext_getElem
  · simp
  · intro n h1 h2
    by_cases hn : n = i
    · subst hn
      rw [List.getElem_set_self]
    · rw [List.getElem_set_ne (fun hh => hn hh.symm)]

theorem gridSet_cancel {g : Grid} {r c : Nat} (h : gridGet g r c = 0) (n : Nat) :
    gridSet (gridSet g r c n) r c 0 = g := by
  by_cases hr : r < g.length
  · have hrow : (gridSet g r c n).getD r [] = (g.getD r []).set c n := by
      simp [gridSet, List.getD, List.getElem?_set_self, hr]
    rw [gridSet, hrow, List.set_set, gridSet, List.set_set]
    have hrow0 : (g.getD r []).set c 0 = g.getD r [] := by
      by_cases hc : c < (g.getD r []).length
      · have : (g.getD r [])[c] = 0 := by
          have h2 := h
          rw [gridGet, List.getD, List.get?_eq_getElem?, List.getElem?_eq_getElem hc] at h2
          simpa using h2
        rw [← this]
        exact set_getElem_own _ c hc
      · exact List.set_eq_of_length_le (by omega)
    rw [hrow0]
    have : g.getD r [] = g[r] := by
      rw [List.getD, List.get?_eq_getElem?, List.getElem?_eq_getElem hr]
      rfl
    rw [this]
    exact set_getElem_own g r hr
  · have hnop : ∀ (x : List Nat), g.set r x = g :=
      fun x => List.set_eq_of_length_le (by omega)
    simp [gridSet, hnop]

theorem tryStep_undo (bfs : Grid → Cands → Bool × Grid)
    (hbfs : ∀ g2 s2, (bfs g2 s2).1 = false → (bfs g2 s2).2 = g2) :
    ∀ nums : List Nat, ∀ g : Grid, ∀ s : Cands, ∀ r c : Nat,
    gridGet g r c = 0 →
    (tryStep bfs g s r c nums).1 = false → (tryStep bfs g s r c nums).2 = g := by
  intro nums
  induction nums with
  | nil => intro g s r c _ _; rfl
  | cons n rest ih =>
    intro g s r c hg hfail
    rw [tryStep] at hfail ⊢
    by_cases hv : isValid g r c n
    · rw [if_pos hv] at hfail ⊢
      generalize hb : bfs (gridSet g r c n) s = res at hfail ⊢
      obtain ⟨b, g2⟩ := res
      cases b with
      | true => simp at hfail
      | false =>
        have hg2 : g2 = gridSet g r c n := by
          have h0 := hbfs (gridSet g r c n) s (by rw [hb])
          rw [hb] at h0
          exact h0
        have hcan : gridSet g2 r c 0 = g := by
          rw [hg2]
          exact gridSet_cancel hg n
        have hfail2 : (tryStep bfs (gridSet g2 r c 0) s r c rest).1 = false := hfail
        rw [hcan] at hfail2
        show (tryStep bfs (gridSet g2 r c 0) s r c rest).2 = g
        rw [hcan]
        exact ih g s r c hg hfail2
    · rw [if_neg hv] at hfail ⊢
      exact ih g s r c hg hfail

theorem pickCell_some_empty {g : Grid} {s : Cands} {rc : Nat × Nat}
    (h : pickCell g s = some rc) : gridGet g rc.1 rc.2 = 0 := by
  rw [pickCell] at h
  suffices hgen : ∀ l : List (Nat × Nat), ∀ acc : Nat × Option (Nat × Nat),
      (∀ rc0, acc.2 = some rc0 → gridGet g rc0.1 rc0.2 = 0) →
      ∀ rc0, (l.foldl (fun acc rc =>
        if gridGet g rc.1 rc.2 = 0 then
          if (dom s (9 * rc.1 + rc.2)).length < acc.1 then
            ((dom s (9 * rc.1 + rc.2)).length, some rc)
          else acc
        else acc) acc).2 = some rc0 → gridGet g rc0.1 rc0.2 = 0 by
    exact hgen rcPairs (10, none) (by simp) rc h
  intro l
  induction l with
  | nil => intro acc hacc rc0 h0; exact hacc rc0 h0
  | cons x xs ih =>
    intro acc hacc rc0 h0
    rw [List.foldl_cons] at h0
    refine ih _ ?_ rc0 h0
    by_cases hx : gridGet g x.1 x.2 = 0
    · rw [if_pos hx]
      by_cases hlt : (dom s (9 * x.1 + x.2)).length < acc.1
      · rw [if_pos hlt]
        intro rc1 h1
        simp at h1
        rw [← h1]
        exact hx
      · rw [if_neg hlt]; exact hacc
    · rw [if_neg hx]; exact hacc

theorem bfSolve_undo : ∀ fuel : Nat, ∀ g : Grid, ∀ s : Cands,
    (bfSolve fuel g s).1 = false → (bfSolve fuel g s).2 = g := by
  intro fuel
  induction fuel with
  | zero => intro g s _; rfl
  | succ n ih =>
    intro g s hfail
    rw [bfSolve_succ] at hfail ⊢
    generalize hp : pickCell g s = pk at hfail ⊢
    rcases pk with _ | rc
    · simp at hfail
    · exact tryStep_undo (bfSolve n) ih _ g s rc.1 rc.2 (pickCell_some_empty hp) hfail

def rcIdx (rc : Nat × Nat) : Nat := 9 * rc.1 + rc.2

theorem pick_fold (g : Grid) (s : Cands) (hlen : ∀ cc : Nat, (dom s cc).length ≤ 9) :
    ∀ l : List (Nat × Nat), ∀ cov : List (Nat × Nat), ∀ acc : Nat × Option (Nat × Nat),
    List.Pairwise (fun a b => rcIdx a < rcIdx b) l →
    (∀ rc ∈ cov, ∀ rc2 ∈ l, rcIdx rc < rcIdx rc2) →
    ((acc.2 = none → acc.1 = 10 ∧ ∀ rc ∈ cov, gridGet g rc.1 rc.2 ≠ 0) ∧
     (∀ rc0, acc.2 = some rc0 → rc0 ∈ cov ∧ gridGet g rc0.1 rc0.2 = 0 ∧
        acc.1 = (dom s (rcIdx rc0)).length ∧
        (∀ rc2 ∈ cov, gridGet g rc2.1 rc2.2 = 0 →
          (dom s (rcIdx rc0)).length ≤ (dom s (rcIdx rc2)).length) ∧
        (∀ rc2 ∈ cov, gridGet g rc2.1 rc2.2 = 0 → rcIdx rc2 < rcIdx rc0 →
          (dom s (rcIdx rc0)).length < (dom s (rcIdx rc2)).length))) →
    (let res := l.foldl (fun acc rc =>
        if gridGet g rc.1 rc.2 = 0 then
          if (dom s (9 * rc.1 + rc.2)).length < acc.1 then
            ((dom s (9 * rc.1 + rc.2)).length, some rc)
          else acc
        else acc) acc
     ((res.2 = none → res.1 = 10 ∧ ∀ rc ∈ cov ++ l, gridGet g rc.1 rc.2 ≠ 0) ∧
      (∀ rc0, res.2 = some rc0 → rc0 ∈ cov ++ l ∧ gridGet g rc0.1 rc0.2 = 0 ∧
        res.1 = (dom s (rcIdx rc0)).length ∧
        (∀ rc2 ∈ cov ++ l, gridGet g rc2.1 rc2.2 = 0 →
          (dom s (rcIdx rc0)).length ≤ (dom s (rcIdx rc2)).length) ∧
        (∀ rc2 ∈ cov ++ l, gridGet g rc2.1 rc2.2 = 0 → rcIdx rc2 < rcIdx rc0 →
          (dom s (rcIdx rc0)).length < (dom s (rcIdx rc2)).length)))) := by
  intro l
  induction l with
  | nil =>
    intro cov acc _ _ hP
    simpa using hP
  | cons rc rest ih =>
    intro cov acc hsort hcov hP
    obtain ⟨hnone, hsome⟩ := hP
    rw [List.foldl_cons]
    have hsort2 : List.Pairwise (fun a b => rcIdx a < rcIdx b) rest :=
      (List.pairwise_cons.1 hsort).2
    have hrc_lt : ∀ rc2 ∈ rest, rcIdx rc < rcIdx rc2 :=
      (List.pairwise_cons.1 hsort).1
    have hcov2 : ∀ x ∈ cov ++ [rc], ∀ rc2 ∈ rest, rcIdx x < rcIdx rc2 := by
      intro x hx rc2 h2
      rcases List.mem_append.1 hx with hx1 | hx1
      · exact hcov x hx1 rc2 (by simp [h2])
      · simp at hx1
        subst hx1
        exact hrc_lt rc2 h2
    have hassoc : (cov ++ [rc]) ++ rest = cov ++ rc :: rest := by simp
    by_cases hx : gridGet g rc.1 rc.2 = 0
    · by_cases hlt : (dom s (9 * rc.1 + rc.2)).length < acc.1
      · rw [if_pos hx, if_pos hlt]
        have hP2 := ih (cov ++ [rc]) ((dom s (9 * rc.1 + rc.2)).length, some rc)
          hsort2 hcov2 (by
            constructor
            · intro hc; simp at hc
            · intro rc0 h0
              simp at h0
              subst h0
              refine ⟨by simp, hx, rfl, ?_, ?_⟩
              · intro rc2 h2 he
                rcases List.mem_append.1 h2 with h3 | h3
                · rcases hacc : acc.2 with _ | a0
                  · obtain ⟨_, hne⟩ := hnone hacc
                    exact absurd he (hne rc2 h3)
                  · obtain ⟨_, _, hacc1, hmin, _⟩ := hsome a0 hacc
                    have := hmin rc2 h3 he
                    rw [← hacc1] at this
                    show (dom s (rcIdx rc)).length ≤ (dom s (rcIdx rc2)).length
                    rw [rcIdx]
                    omega
                · rw [List.mem_singleton] at h3
                  rw [h3]
              · intro rc2 h2 he hidx
                rcases List.mem_append.1 h2 with h3 | h3
                · rcases hacc : acc.2 with _ | a0
                  · obtain ⟨_, hne⟩ := hnone hacc
                    exact absurd he (hne rc2 h3)
                  · obtain ⟨_, _, hacc1, hmin, _⟩ := hsome a0 hacc
                    have := hmin rc2 h3 he
                    rw [← hacc1] at this
                    show (dom s (rcIdx rc)).length < (dom s (rcIdx rc2)).length
                    rw [rcIdx]
                    omega
                · rw [List.mem_singleton] at h3
                  rw [h3] at hidx
                  exact absurd hidx (lt_irrefl _))
        rw [hassoc] at hP2
        exact hP2
      · rw [if_pos hx, if_neg hlt]
        have hP2 := ih (cov ++ [rc]) acc hsort2 hcov2 (by
          constructor
          · intro hacc
            obtain ⟨h10, _⟩ := hnone hacc
            exfalso
            have := hlen (9 * rc.1 + rc.2)
            omega
          · intro rc0 h0
            obtain ⟨hmem, hemp, hacc1, hmin, hstrict⟩ := hsome rc0 h0
            refine ⟨by simp [hmem], hemp, hacc1, ?_, ?_⟩
            · intro rc2 h2 he
              rcases List.mem_append.1 h2 with h3 | h3
              · exact hmin rc2 h3 he
              · rw [List.mem_singleton] at h3
                rw [h3]
                simp only [rcIdx] at hacc1 ⊢
                omega
            · intro rc2 h2 he hidx
              rcases List.mem_append.1 h2 with h3 | h3
              · exact hstrict rc2 h3 he hidx
              · rw [List.mem_singleton] at h3
                rw [h3] at hidx
                exfalso
                have := hcov rc0 hmem rc (by simp)
                omega)
        rw [hassoc] at hP2
        exact hP2
    · rw [if_neg hx]
      have hP2 := ih (cov ++ [rc]) acc hsort2 hcov2 (by
        constructor
        · intro hacc
          obtain ⟨h10, hne⟩ := hnone hacc
          refine ⟨h10, ?_⟩
          intro rc2 h2
          rcases List.mem_append.1 h2 with h3 | h3
          · exact hne rc2 h3
          · rw [List.mem_singleton] at h3
            rw [h3]
            exact hx
        · intro rc0 h0
          obtain ⟨hmem, hemp, hacc1, hmin, hstrict⟩ := hsome rc0 h0
          refine ⟨by simp [hmem], hemp, hacc1, ?_, ?_⟩
          · intro rc2 h2 he
            rcases List.mem_append.1 h2 with h3 | h3
            · exact hmin rc2 h3 he
            · rw [List.mem_singleton] at h3
              rw [h3] at he
              exact absurd he hx
          · intro rc2 h2 he hidx
            rcases List.mem_append.1 h2 with h3 | h3
            · exact hstrict rc2 h3 he hidx
            · rw [List.mem_singleton] at h3
              rw [h3] at he
              exact absurd he hx)
      rw [hassoc] at hP2
      exact hP2

theorem rcPairs_bounds : ∀ rc ∈ rcPairs, rc.1 < 9 ∧ rc.2 < 9 := by decide

theorem mem_rcPairs (r c : Nat) (hr : r < 9) (hc : c < 9) : (r, c) ∈ rcPairs := by
  have h : ∀ r2 < 9, ∀ c2 < 9, (r2, c2) ∈ rcPairs := by decide
  exact h r hr c hc

/-- C7: at each branching step `BruteForceSolver::solve` picks an unassigned
cell (board value 0) whose candidate domain is smallest among all unassigned
cells, ties broken by row-major scan order (a later cell is chosen only with a
strictly smaller domain than every earlier unassigned cell); when no
unassigned cell remains the solver returns `true` with the board unchanged,
and whenever it returns `false` the board is returned exactly as given (every
tentative assignment has been undone). The hypothesis `hlen` states that every
candidate domain has at most nine entries, true of every reachable candidate
state (domains are subsets of 1-9). -/
theorem c7_bruteforce_mrv_tiebreak_undo (g : Grid) (s : Cands)
    (hlen : ∀ cc : Nat, (dom s cc).length ≤ 9) :
    (pickCell g s = none → ∀ r c, r < 9 → c < 9 → gridGet g r c ≠ 0) ∧
    (∀ rc, pickCell g s = some rc → rc.1 < 9 ∧ rc.2 < 9 ∧ gridGet g rc.1 rc.2 = 0 ∧
      (∀ r c, r < 9 → c < 9 → gridGet g r c = 0 →
        (dom s (9 * rc.1 + rc.2)).length ≤ (dom s (9 * r + c)).length) ∧
      (∀ r c, r < 9 → c < 9 → gridGet g r c = 0 → 9 * r + c < 9 * rc.1 + rc.2 →
        (dom s (9 * rc.1 + rc.2)).length < (dom s (9 * r + c)).length)) ∧
    (∀ fuel, pickCell g s = none → bfSolve (fuel + 1) g s = (true, g)) ∧
    (∀ fuel, (bfSolve fuel g s).1 = false → (bfSolve fuel g s).2 = g) := by
  have hpair : List.Pairwise (fun a b => rcIdx a < rcIdx b) rcPairs := by decide
  have hinv := pick_fold g s hlen rcPairs [] (10, none) hpair (by simp)
    (by
      constructor
      · intro _
        exact ⟨rfl, by simp⟩
      · intro rc0 h0
        simp at h0)
  simp only [List.nil_append] at hinv
  obtain ⟨hnone, hsome⟩ := hinv
  refine ⟨?_, ?_, ?_, fun fuel => bfSolve_undo fuel g s⟩
  · intro hn r c hr hc
    obtain ⟨_, hne⟩ := hnone hn
    exact hne (r, c) (mem_rcPairs r c hr hc)
  · intro rc hpk
    obtain ⟨hmem, hemp, _, hmin, hstrict⟩ := hsome rc hpk
    obtain ⟨hr9, hc9⟩ := rcPairs_bounds rc hmem
    refine ⟨hr9, hc9, hemp, ?_, ?_⟩
    · intro r c hr hc he
      have := hmin (r, c) (mem_rcPairs r c hr hc) he
      simpa [rcIdx] using this
    · intro r c hr hc he hidx
      have := hstrict (r, c) (mem_rcPairs r c hr hc) he (by simpa [rcIdx] using hidx)
      simpa [rcIdx] using this
  · intro fuel hn
    rw [bfSolve_succ, hn]

def solvedGrid : Grid :=
  [[1,2,3,4,5,6,7,8,9],
   [4,5,6,7,8,9,1,2,3],
   [7,8,9,1,2,3,4,5,6],
   [2,3,4,5,6,7,8,9,1],
   [5,6,7,8,9,1,2,3,4],
   [8,9,1,2,3,4,5,6,7],
   [3,4,5,6,7,8,9,1,2],
   [6,7,8,9,1,2,3,4,5],
   [9,1,2,3,4,5,6,7,8]]

def nearGrid : Grid := gridSet solvedGrid 0 0 0

def nearCands : Cands := mkCands [(0, [2])]

theorem dom_len_le_of (s : Cands) (h : ∀ cc, cc < s.length → (dom s cc).length ≤ 9) :
    ∀ cc, (dom s cc).length ≤ 9 := by
  intro cc
  by_cases hc : cc < s.length
  · exact h cc hc
  · have hd : dom s cc = [] := List.getD_eq_default _ _ (Nat.le_of_not_lt hc)
    simp [hd]

set_option maxRecDepth 100000 in
set_option maxHeartbeats 8000000 in
/-- C7 witness: on `nearGrid` (a solved board with cell `A1` blanked) the
solver picks `A1`, and a failing solve (sole candidate 2 clashes with row A)
returns the board unchanged. -/
theorem c7_bruteforce_mrv_tiebreak_undo_witness :
    gridGet nearGrid 0 0 = 0 ∧ (bfSolve 1 nearGrid nearCands).2 = nearGrid := by
  have h := c7_bruteforce_mrv_tiebreak_undo nearGrid nearCands (dom_len_le_of nearCands (by decide))
  exact ⟨(h.2.1 (0, 0) (by decide)).2.2.1, h.2.2.2 1 (by decide)⟩

set_option maxRecDepth 100000 in
/-- C6 counterexample: the 81-character string of `'0'`s consists of
characters outside the claimed alphabet (digits `'1'`-`'9'` and the `'.'`
placeholder), yet `from_string` accepts it and parses every cell as blank
instead of returning an error. -/
theorem c6_counterexample :
    (fromString (List.replicate 81 '0')).map Except.toOption = some (some emptyGrid) := by
  decide

set_option maxRecDepth 100000 in
/-- C6 witness: the length error on a 1-character string, a successful
parse of 81 dots, and a descriptive error on a string containing `'?'`. -/
theorem c6_from_string_errors_never_panics_witness :
    fromString ['5'] = some (Except.error "Input string must be 81 characters long.") ∧
    (fromString (List.replicate 81 '.') ≠ none ∧
      ∃ g, fromString (List.replicate 81 '.') = some (Except.ok g)) ∧
    (∃ e, fromString (('?' :: List.replicate 80 '.')) = some (Except.error e)) := by
  refine ⟨c6_from_string_errors_never_panics.1 ['5'] (by decide), ?_, ?_⟩
  · have h := c6_from_string_errors_never_panics.2 (List.replicate 81 '.') (by decide)
    exact ⟨h.1, h.2.1 (by decide)⟩
  · exact (c6_from_string_errors_never_panics.2 ('?' :: List.replicate 80 '.') (by decide)).2.2 ⟨'?', by decide⟩

/-! ### C8: the Metropolis accept test (sudoku.rs lines 1326-1337) -/

/-- In a real run `expVal` is `exp(delta_s / temperature)` with
`delta_s > 0` and `temperature > 0`, so it is at least 1: the hypothesis
`1 ≤ expVal` of the C8 theorem is satisfied by every actual call. -/
theorem one_le_exp_of_pos_ratio (d t : ℝ) (hd : 0 < d) (ht : 0 < t) :
    1 ≤ Real.exp (d / t) :=
  Real.one_le_exp (le_of_lt (div_pos hd ht))

/-- C8: the downhill half of the claim holds - a swap whose score change is
zero or negative is always accepted. The uphill half is a bug: for
`delta_s > 0` the code tests `exp(delta_s / temperature) < u` (sudoku.rs
line 1335) against a uniform draw `u` from `[0,1)`; since the exponent is
positive the left side is at least 1 (`one_le_exp_of_pos_ratio`), so the
test is false for every possible draw and a conflict-increasing move is
never accepted - not accepted with probability `exp(Δ/T)` as claimed. -/
theorem c8_uphill_moves_never_accepted (expVal u : ℚ) (deltaS : Int)
    (he : 1 ≤ expVal) (hu1 : u < 1) :
    (deltaS ≤ 0 → accept expVal deltaS u = true) ∧
    (0 < deltaS → accept expVal deltaS u = false) := by
  constructor
  · intro hd
    simp [accept, hd]
  · intro hd
    have hne : ¬ deltaS ≤ 0 := by omega
    have hlt : ¬ expVal < u := by
      intro h
      linarith
    simp [accept, hne, hlt]

/-- C8 witness: with `exp(Δ/T)` worth 2 and the draw `u = 1/2`, a move
with `Δscore = -1` is accepted and a move with `Δscore = 1` is rejected. -/
theorem c8_uphill_moves_never_accepted_witness :
    accept 2 (-1) (1/2) = true ∧ accept 2 1 (1/2) = false :=
  ⟨(c8_uphill_moves_never_accepted 2 (1/2) (-1) (by norm_num) (by norm_num)).1 (by decide),
   (c8_uphill_moves_never_accepted 2 (1/2) 1 (by norm_num) (by norm_num)).2 (by decide)⟩

/-! ### C9: the annealing score on solved and duplicated boards -/

def digits19 : List Nat := [1, 2, 3, 4, 5, 6, 7, 8, 9]

def allUnits (g : Grid) : List (List Nat) :=
  (List.range 9).map (fun i => rowList g i) ++
  (List.range 9).map (fun i => colList g i) ++
  (List.range 9).map (fun k => boxList g (k / 3) (k % 3))

theorem uniqueElements_le (l : List Nat) : uniqueElements l ≤ l.length := by
  have h1 : (l.filter (fun x => x ≠ 0)).dedup.Sublist (l.filter (fun x => x ≠ 0)) :=
    List.dedup_sublist _
  have h2 : (l.filter (fun x => x ≠ 0)).Sublist l := List.filter_sublist l
  have := (h1.trans h2).length_le
  simp only [uniqueElements]
  omega

theorem uniqueElements_eq_nine (l : List Nat) (hlen : l.length = 9)
    (hall : ∀ d ∈ digits19, d ∈ l) : uniqueElements l = 9 := by
  have hsub : digits19 ⊆ (l.filter (fun x => x ≠ 0)).dedup := by
    intro d hd
    have hd0 : d ≠ 0 := by
      intro h
      subst h
      simp [digits19] at hd
    rw [List.mem_dedup, List.mem_filter]
    exact ⟨hall d hd, by simp [hd0]⟩
  have hnd : digits19.Nodup := by decide
  have h9 := (hnd.subperm hsub).length_le
  have hle := uniqueElements_le l
  simp only [digits19, List.length_cons, List.length_nil] at h9
  simp only [uniqueElements] at *
  omega

theorem uniqueElements_le_eight (l : List Nat) (hlen : l.length = 9)
    (hdup : ¬ (l.filter (fun x => x ≠ 0)).Nodup) : uniqueElements l ≤ 8 := by
  have h1 : (l.filter (fun x => x ≠ 0)).dedup.Sublist (l.filter (fun x => x ≠ 0)) :=
    List.dedup_sublist _
  have h2 : (l.filter (fun x => x ≠ 0)).length ≤ l.length := (List.filter_sublist l).length_le
  have hne : (l.filter (fun x => x ≠ 0)).dedup.length ≠ (l.filter (fun x => x ≠ 0)).length := by
    intro h
    exact hdup (h1.eq_of_length h ▸ List.nodup_dedup _)
  have h3 := h1.length_le
  simp only [uniqueElements]
  omega

theorem rowList_length {g : Grid} (hwf : g.length = 9 ∧ ∀ row ∈ g, row.length = 9)
    {i : Nat} (hi : i < 9) : (rowList g i).length = 9 := by
  have hi2 : i < g.length := by omega
  rw [rowList, List.getD, List.get?_eq_getElem?, List.getElem?_eq_getElem hi2]
  exact hwf.2 _ (List.getElem_mem _)

theorem colList_length (g : Grid) (i : Nat) : (colList g i).length = 9 := by
  simp [colList]

theorem boxList_length (g : Grid) (bx bb : Nat) : (boxList g bx bb).length = 9 := by
  simp [boxList]

theorem allUnits_length {g : Grid} {u : List Nat}
    (hwf : g.length = 9 ∧ ∀ row ∈ g, row.length = 9) (hu : u ∈ allUnits g) :
    u.length = 9 := by
  simp only [allUnits, List.mem_append, List.mem_map, List.mem_range] at hu
  rcases hu with (⟨i, hi, he⟩ | ⟨i, hi, he⟩) | ⟨k, hk, he⟩
  · exact he ▸ rowList_length hwf hi
  · exact he ▸ colList_length g i
  · exact he ▸ boxList_length g (k / 3) (k % 3)

theorem int_sum_eq (c : Int) : ∀ L : List Int, (∀ x ∈ L, x = c) →
    L.sum = c * L.length := by
  intro L
  induction L with
  | nil => simp
  | cons a t ih =>
    intro h
    have ha := h a (by simp)
    have ht := ih (fun x hx => h x (by simp [hx]))
    simp only [List.sum_cons, List.length_cons, ht, ha]
    push_cast
    ring

theorem int_sum_le (c : Int) : ∀ L : List Int, (∀ x ∈ L, x ≤ c) →
    L.sum ≤ c * L.length := by
  intro L
  induction L with
  | nil => simp
  | cons a t ih =>
    intro h
    have ha := h a (by simp)
    have ht := ih (fun x hx => h x (by simp [hx]))
    simp only [List.sum_cons, List.length_cons]
    push_cast
    push_cast at ht
    linarith

theorem int_sum_lt (c : Int) : ∀ L : List Int, (∀ x ∈ L, x ≤ c) →
    ∀ x ∈ L, x ≤ c - 1 → L.sum ≤ c * L.length - 1 := by
  intro L
  induction L with
  | nil => intro _ x hx; simp at hx
  | cons a t ih =>
    intro h x hx hx8
    have ht9 := int_sum_le c t (fun y hy => h y (by simp [hy]))
    rcases List.mem_cons.1 hx with h1 | h1
    · subst h1
      simp only [List.sum_cons, List.length_cons]
      push_cast
      push_cast at ht9
      linarith
    · have := ih (fun y hy => h y (by simp [hy])) x h1 hx8
      have ha := h a (by simp)
      simp only [List.sum_cons, List.length_cons]
      push_cast
      push_cast at this
      linarith

theorem score_allUnits (g : Grid) :
    score g = -(((allUnits g).map uniqueElements).sum) := by
  simp only [score, allUnits]
  norm_num [List.range_succ, List.sum_append, List.map_append]
  ring

/-- C9: on a well-formed 9x9 board, if every row, column and box (the 27
entries of `allUnits`) contains all nine digits then `StochasticSolver::score`
returns exactly -243; and if some row, column or box contains a duplicate
non-zero digit (its non-zero entries are not pairwise distinct) then the
score is strictly greater than -243. -/
theorem c9_score_perfect_and_duplicates (g : Grid)
    (hwf : g.length = 9 ∧ ∀ row ∈ g, row.length = 9) :
    ((∀ u ∈ allUnits g, ∀ d ∈ digits19, d ∈ u) → score g = -243) ∧
    ((∃ u ∈ allUnits g, ¬ (u.filter (fun x => x ≠ 0)).Nodup) → -243 < score g) := by
  have hlen27 : ((allUnits g).map uniqueElements).length = 27 := by
    simp [allUnits]
  constructor
  · intro hall
    have h9 : ∀ x ∈ (allUnits g).map uniqueElements, x = 9 := by
      intro x hx
      obtain ⟨u, hu, hxe⟩ := List.mem_map.1 hx
      exact hxe ▸ uniqueElements_eq_nine u (allUnits_length hwf hu) (hall u hu)
    rw [score_allUnits, int_sum_eq 9 _ h9, hlen27]
    norm_num
  · rintro ⟨u, hu, hdup⟩
    have hle : ∀ x ∈ (allUnits g).map uniqueElements, x ≤ 9 := by
      intro x hx
      obtain ⟨u2, hu2, hxe⟩ := List.mem_map.1 hx
      have h1 := uniqueElements_le u2
      rw [allUnits_length hwf hu2] at h1
      omega
    have h8 : uniqueElements u ≤ 9 - 1 := by
      have := uniqueElements_le_eight u (allUnits_length hwf hu) hdup
      omega
    have hmem : uniqueElements u ∈ (allUnits g).map uniqueElements :=
      List.mem_map_of_mem _ hu
    have hsum := int_sum_lt 9 ((allUnits g).map uniqueElements) hle _ hmem h8
    rw [hlen27] at hsum
    rw [score_allUnits]
    omega

def dupGrid : Grid := gridSet solvedGrid 0 0 2

set_option maxRecDepth 100000 in
/-- C9 witness: the cyclic solved grid scores exactly -243; overwriting its
cell `A1` with 2 duplicates the 2 already in row `A`, and the score becomes
strictly greater than -243. -/
theorem c9_score_perfect_and_duplicates_witness :
    score solvedGrid = -243 ∧ -243 < score dupGrid :=
  ⟨(c9_score_perfect_and_duplicates solvedGrid (by decide)).1 (by decide),
   (c9_score_perfect_and_duplicates dupGrid (by decide)).2 ⟨rowList dupGrid 0, by decide, by decide⟩⟩

/-! ### C10: temperature reset and the shared iteration budget -/

theorem stochLoopF_props (picks : Nat → Nat × Nat × Nat) (expVals us : Nat → ℚ) :
    ∀ fuel : Nat, ∀ st : StochState, ∀ g : Grid, ∀ sc : Int, ∀ t : Nat,
    (stochLoopF picks expVals us fuel st g sc t).1.temperatureStart = st.temperatureStart ∧
    st.counter ≤ (stochLoopF picks expVals us fuel st g sc t).1.counter := by
  intro fuel
  induction fuel with
  | zero =>
    intro st g sc t
    rw [stochLoopF_zero]
    exact ⟨rfl, le_refl _⟩
  | succ fuel ih =>
    intro st g sc t
    rw [stochLoopF_succ]
    simp only [stochStep]
    by_cases h : -243 < sc ∧ st.counter < 1000000
    · rw [if_pos h]
      have hcnt : (coolDown (swapRandom st g (picks t)).1).counter = st.counter + 1 := by
        simp [swapRandom, coolDown]
      have hts : (coolDown (swapRandom st g (picks t)).1).temperatureStart =
          st.temperatureStart := by
        simp [swapRandom, coolDown]
      by_cases ha : accept (expVals t) (score (swapRandom st g (picks t)).2 - sc) (us t) = true
      · rw [if_pos ha]
        obtain ⟨h1, h2⟩ := ih (coolDown (swapRandom st g (picks t)).1)
          (swapRandom st g (picks t)).2 (score (swapRandom st g (picks t)).2) (t + 1)
        exact ⟨h1.trans hts, by omega⟩
      · rw [if_neg ha]
        obtain ⟨h1, h2⟩ := ih (coolDown (swapRandom st g (picks t)).1) g sc (t + 1)
        exact ⟨h1.trans hts, by omega⟩
    · rw [if_neg h]
      exact ⟨rfl, le_refl _⟩

theorem stochLoop_exhausted (st : StochState) (g : Grid) (sc : Int)
    (picks : Nat → Nat × Nat × Nat) (expVals us : Nat → ℚ) (t : Nat)
    (hge : 1000000 ≤ st.counter) :
    stochLoop st g sc picks expVals us t = (st, g, sc) := by
  rw [stochLoop, Nat.sub_eq_zero_of_le hge, stochLoopF_zero]

set_option maxRecDepth 100000 in
set_option maxHeartbeats 2000000 in
/-- C10: `StochasticSolver::solve` returns with the temperature field reset
to `temperature_start`, while the counter field is never reset: the returned
counter is at least the incoming one, and when the incoming counter has
already reached the loop bound 1000000 the returned state is exactly the
incoming state with only the temperature overwritten and the board is exactly
the blank-filled board - zero swap moves are performed, showing the iteration
budget is shared across successive solve calls on one solver instance. -/
theorem c10_temperature_reset_counter_kept (st : StochState) (g : Grid) (shuffleFn : List Nat → List Nat)
    (picks : Nat → Nat × Nat × Nat) (expVals us : Nat → ℚ) :
    (stochSolve st g shuffleFn picks expVals us).2.1.temperature = st.temperatureStart ∧
    st.counter ≤ (stochSolve st g shuffleFn picks expVals us).2.1.counter ∧
    (1000000 ≤ st.counter →
      (stochSolve st g shuffleFn picks expVals us).2.1 =
        { st with temperature := st.temperatureStart } ∧
      (stochSolve st g shuffleFn picks expVals us).2.2 =
        fillBlanks g (shuffleFn (missingDigits g))) := by
  obtain ⟨h1, h2⟩ := stochLoopF_props picks expVals us (1000000 - st.counter) st
    (fillBlanks g (shuffleFn (missingDigits g)))
    (score (fillBlanks g (shuffleFn (missingDigits g)))) 0
  refine ⟨?_, ?_, ?_⟩
  · simp only [stochSolve, stochLoop]
    rw [h1]
  · simp only [stochSolve, stochLoop]
    exact h2
  · intro hge
    simp only [stochSolve]
    generalize fillBlanks g (shuffleFn (missingDigits g)) = G
    generalize score G = S
    rw [stochLoop_exhausted st G S picks expVals us 0 hge]
    exact ⟨rfl, rfl⟩

def exhaustedState : StochState :=
  { temperature := 10000, temperatureStart := 10000, coolingFactor := 99 / 100,
    counter := 1000000 }

set_option maxRecDepth 100000 in
/-- C10 witness: on a solver state whose counter already equals 1000000,
solve returns the state unchanged except for the temperature reset, and the
board comes back exactly as the blank-filling pass left it. -/
theorem c10_temperature_reset_counter_kept_witness :
    (stochSolve exhaustedState emptyGrid (fun l => l) (fun t => (t, t, t)) (fun t => (t : ℚ))
        (fun t => (t : ℚ))).2.1 =
      { exhaustedState with temperature := 10000 } ∧
    (stochSolve exhaustedState emptyGrid (fun l => l) (fun t => (t, t, t)) (fun t => (t : ℚ))
        (fun t => (t : ℚ))).2.2 =
      fillBlanks emptyGrid (missingDigits emptyGrid) := by
  obtain ⟨h4, h5⟩ := (c10_temperature_reset_counter_kept exhaustedState emptyGrid (fun l => l) (fun t => (t, t, t))
    (fun t => (t : ℚ)) (fun t => (t : ℚ))).2.2 (by decide)
  exact ⟨h4, h5⟩
